import Mathlib

/-!
# sebnow/data_structures: reference-counted queue and binary tree

A shallow embedding of `queue/queue.c` and `binary_tree/binary_tree.c`.

Conventions of the embedding:

* a pointer is a `Nat`, `NULL` is `0`; a function pointer is a `Nat` too;
* dynamic storage is a partial map from addresses to records, `none` meaning
  "not allocated (any more)"; reading or writing such an address is a fault;
* `malloc` is an oracle: the address (or the raw block) it returns is an argument
  of the embedded function;
* calling a free-function callback appends `(function, argument)` to a log;
* `unsigned int` is 32 bits wide and `size_t` 64 bits wide (LP64).
-/

namespace DataStructures

/-! ## Common definitions -/

/-- Number of values of an `unsigned int`. -/
def UINT_MODULUS : Nat := 2 ^ 32

/-- Number of values of a `size_t` (and of a pointer). -/
def SIZE_MODULUS : Nat := 2 ^ 64

/-- Ways an embedded call can fail to return normally. -/
inductive Fault where
  /-- An `assert(...)` did not hold. -/
  | assertion
  /-- A `NULL` or dangling pointer was dereferenced. -/
  | invalidAccess
  /-- The step budget of the embedding was exhausted. -/
  | outOfFuel
  deriving DecidableEq

/-! ## queue/queue.c -/

/-- Embedding of `struct _QueueNode`. -/
structure QueueNode where
  /-- The data stored in the node. -/
  data : Nat
  /-- Next node in the queue. -/
  next : Nat
  /-- Callback used for freeing `data`. -/
  freeFunction : Nat
  deriving DecidableEq

/-- Embedding of `struct _Queue`. -/
structure Queue where
  /-- Amount of references held (`unsigned int`). -/
  refcount : Nat
  /-- Head (oldest) node of the queue. -/
  head : Nat
  /-- Tail (newest) node of the queue. -/
  tail : Nat
  /-- Amount of nodes in the queue (`size_t`). -/
  count : Nat
  deriving DecidableEq

/-- Memory seen by the queue functions: the queue object (`none` once it has been
freed), the storage of the queue nodes, and the log of free-function calls. -/
structure QueueMem where
  /-- Storage of the `Queue` object the handle points to. -/
  self : Option Queue
  /-- Storage of the `QueueNode` objects, by address. -/
  nodes : Nat → Option QueueNode
  /-- Free-function invocations so far, oldest first: `(function, argument)`. -/
  calls : List (Nat × Nat)

/-- Embedding of `QueueNode_newWithData_freeFunction_`; `a` is what `malloc` returned. -/
def QueueNode_newWithData_freeFunction_ (nodes : Nat → Option QueueNode) (a : Nat)
    (data : Nat) (freefunction : Nat) : Nat × (Nat → Option QueueNode) :=
  if a ≠ 0 then
    (a, Function.update nodes a
      (some { data := data, next := 0, freeFunction := freefunction }))
  else
    (a, nodes)

/-- Embedding of `Queue_new`; `block` is what `malloc` returned: `none` for `NULL`,
otherwise the indeterminate content of the fresh block. Only `head`, `tail` and
`count` are assigned. The result is `none` when `NULL` is returned. -/
def Queue_new (block : Option Queue) : Option QueueMem :=
  match block with
  | none => none
  | some raw =>
    some { self := some { raw with head := 0, tail := 0, count := 0 }
           nodes := fun _ => none
           calls := [] }

/-- Embedding of `Queue_insert_withFreeFunction_`; `a` is what `malloc` returned for
the node. Returns the return value and the new memory. -/
def Queue_insert_withFreeFunction_ (s : QueueMem) (a : Nat) (data : Nat)
    (freeFunction : Nat) : Except Fault (Nat × QueueMem) :=
  match s.self with
  | none => .error .invalidAccess
  | some q =>
    let r := QueueNode_newWithData_freeFunction_ s.nodes a data freeFunction
    let node := r.1
    if q.tail = 0 then
      .ok (1, { s with
        self := some { q with tail := node, head := node,
                              count := (q.count + 1) % SIZE_MODULUS }
        nodes := r.2 })
    else
      match r.2 q.tail with
      | none => .error .invalidAccess
      | some t =>
        .ok (1, { s with
          self := some { q with tail := node, count := (q.count + 1) % SIZE_MODULUS }
          nodes := Function.update r.2 q.tail (some { t with next := node }) })

/-- Embedding of `Queue_remove_`. Returns the return value, the content of `*data`
and the new memory. -/
def Queue_remove_ (s : QueueMem) : Except Fault (Nat × Nat × QueueMem) :=
  match s.self with
  | none => .error .invalidAccess
  | some q =>
    if q.head = 0 then
      .ok (0, 0, s)
    else
      match s.nodes q.head with
      | none => .error .invalidAccess
      | some h =>
        let node := h.next
        let count := (q.count + SIZE_MODULUS - 1) % SIZE_MODULUS
        .ok (1, h.data, { s with
          self := some { q with head := node, count := count,
                                tail := if node = 0 then 0 else q.tail }
          nodes := Function.update s.nodes q.head none })

/-- Embedding of `Queue_count`: the `size_t` field converted to `unsigned int`. -/
def Queue_count (s : QueueMem) : Except Fault Nat :=
  match s.self with
  | none => .error .invalidAccess
  | some q => .ok (q.count % UINT_MODULUS)

/-- The `while(Queue_remove_(self, &data))` loop of `Queue_release`; `freeFunction`
is the local variable of that name. -/
def Queue_release_loop : Nat → QueueMem → Nat → Except Fault QueueMem
  | 0, _, _ => .error .outOfFuel
  | fuel + 1, s, freeFunction =>
    match Queue_remove_ s with
    | .error e => .error e
    | .ok (r, data, s1) =>
      if r = 0 then
        .ok s1
      else
        let s2 : QueueMem :=
          if freeFunction ≠ 0 ∧ data ≠ 0 then
            { s1 with calls := s1.calls ++ [(freeFunction, data)] }
          else s1
        match s2.self with
        | none => .error .invalidAccess
        | some q =>
          if q.head ≠ 0 then
            match s2.nodes q.head with
            | none => .error .invalidAccess
            | some h => Queue_release_loop fuel s2 h.freeFunction
          else
            Queue_release_loop fuel s2 freeFunction

/-- Embedding of `Queue_release`; `fuel` bounds the iterations of the loop. -/
def Queue_release (fuel : Nat) (s : QueueMem) : Except Fault QueueMem :=
  match s.self with
  | none => .error .invalidAccess
  | some q =>
    let q1 : Queue := { q with refcount := (q.refcount + UINT_MODULUS - 1) % UINT_MODULUS }
    let s1 : QueueMem := { s with self := some q1 }
    if q1.refcount = 0 then
      let drained : Except Fault QueueMem :=
        if q1.head ≠ 0 then
          match s1.nodes q1.head with
          | none => .error .invalidAccess
          | some h => Queue_release_loop fuel s1 h.freeFunction
        else .ok s1
      match drained with
      | .error e => .error e
      | .ok s2 => .ok { s2 with self := none }
    else
      .ok s1

/-- Embedding of `Queue_retain`. -/
def Queue_retain (s : QueueMem) : Except Fault QueueMem :=
  match s.self with
  | none => .error .invalidAccess
  | some q => .ok { s with self := some { q with refcount := (q.refcount + 1) % UINT_MODULUS } }

/-! ## binary_tree/binary_tree.c -/

/-- Embedding of `struct _BinaryTree`. -/
structure BinaryTree where
  /-- Count of references to this tree (`unsigned int`). -/
  refCount : Nat
  /-- Function for freeing the value. -/
  freeFunction : Nat
  /-- Pointer to the parent node. -/
  parent : Nat
  /-- Pointer to the value contained in the node. -/
  value : Nat
  /-- Pointer to the left branch. -/
  left : Nat
  /-- Pointer to the right branch. -/
  right : Nat
  deriving DecidableEq

/-- Memory seen by the tree functions: the storage of the tree nodes and the log of
free-function calls. -/
structure TreeMem where
  /-- Storage of the `BinaryTree` objects, by address. -/
  heap : Nat → Option BinaryTree
  /-- Free-function invocations so far, oldest first: `(function, argument)`. -/
  calls : List (Nat × Nat)

/-- The two `BinaryTree *` fields a `BinaryTree **branch` can point to. -/
inductive Branch where
  | left
  | right
  deriving DecidableEq

/-- The default free function, `#define BINARY_TREE_FREE NULL`. -/
def BINARY_TREE_FREE : Nat := 0

/-- Memory with no tree node allocated and nothing logged. -/
def TreeMem.empty : TreeMem := { heap := fun _ => none, calls := [] }

/-- Dereference of a `BinaryTree *`. -/
def TreeMem.load (m : TreeMem) (p : Nat) : Except Fault BinaryTree :=
  match m.heap p with
  | none => .error .invalidAccess
  | some t => .ok t

/-- Overwrite the object at `p`. -/
def TreeMem.store (m : TreeMem) (p : Nat) (t : BinaryTree) : TreeMem :=
  { m with heap := Function.update m.heap p (some t) }

/-- Read `*branch` where `branch` is `&owner->left` or `&owner->right`. -/
def TreeMem.readBranch (m : TreeMem) (owner : Nat) (b : Branch) : Except Fault Nat :=
  match m.heap owner with
  | none => .error .invalidAccess
  | some t =>
    match b with
    | .left => .ok t.left
    | .right => .ok t.right

/-- Assign `*branch = v` where `branch` is `&owner->left` or `&owner->right`. -/
def TreeMem.writeBranch (m : TreeMem) (owner : Nat) (b : Branch) (v : Nat) :
    Except Fault TreeMem :=
  match m.heap owner with
  | none => .error .invalidAccess
  | some t =>
    match b with
    | .left => .ok (m.store owner { t with left := v })
    | .right => .ok (m.store owner { t with right := v })

/-- Embedding of `BinaryTree_retain`. -/
def BinaryTree_retain (m : TreeMem) (self : Nat) : Except Fault (Nat × TreeMem) :=
  if self = 0 then .error .assertion
  else
    match m.heap self with
    | none => .error .invalidAccess
    | some t =>
      .ok (self, m.store self { t with refCount := (t.refCount + 1) % UINT_MODULUS })

/-- Embedding of `BinaryTree_setValue_freeFunction_`. -/
def BinaryTree_setValue_freeFunction_ (m : TreeMem) (self : Nat) (value : Nat)
    (freeFunction : Nat) : Except Fault (Nat × TreeMem) :=
  if self = 0 then .error .assertion
  else
    match m.heap self with
    | none => .error .invalidAccess
    | some t =>
      let m1 : TreeMem :=
        if t.freeFunction ≠ 0 then { m with calls := m.calls ++ [(t.freeFunction, t.value)] }
        else m
      .ok (1, m1.store self { t with value := value, freeFunction := freeFunction })

/-- Embedding of `BinaryTree_setValue_`. -/
def BinaryTree_setValue_ (m : TreeMem) (self : Nat) (value : Nat) :
    Except Fault (Nat × TreeMem) :=
  if self = 0 then .error .assertion
  else BinaryTree_setValue_freeFunction_ m self value BINARY_TREE_FREE

/-- Embedding of `_setTree_forBranch_(tree, branch)`, with `branch` given as the
field `b` of `owner`; `release` is `BinaryTree_release`. -/
def _setTree_forBranch_ (release : TreeMem → Nat → Except Fault TreeMem) (m : TreeMem)
    (tree : Nat) (owner : Nat) (b : Branch) : Except Fault (Nat × TreeMem) :=
  match m.readBranch owner b with
  | .error e => .error e
  | .ok cur =>
    match (if cur ≠ 0 then release m cur else .ok m) with
    | .error e => .error e
    | .ok m1 =>
      if tree = 0 then
        match m1.writeBranch owner b tree with
        | .error e => .error e
        | .ok m2 => .ok (1, m2)
      else
        match BinaryTree_retain m1 tree with
        | .error e => .error e
        | .ok (r, m2) =>
          match m2.writeBranch owner b r with
          | .error e => .error e
          | .ok m3 =>
            match m3.readBranch owner b with
            | .error e => .error e
            | .ok p =>
              match m3.heap tree with
              | none => .error .invalidAccess
              | some t => .ok (1, m3.store tree { t with parent := p })

/-- Body of `BinaryTree_setLeftTree_` over a given `BinaryTree_release`. -/
def setLeftTreeWith (release : TreeMem → Nat → Except Fault TreeMem) (m : TreeMem)
    (self : Nat) (tree : Nat) : Except Fault (Nat × TreeMem) :=
  if self = 0 then .error .assertion
  else _setTree_forBranch_ release m tree self .left

/-- Body of `BinaryTree_setRightTree_` over a given `BinaryTree_release`. -/
def setRightTreeWith (release : TreeMem → Nat → Except Fault TreeMem) (m : TreeMem)
    (self : Nat) (tree : Nat) : Except Fault (Nat × TreeMem) :=
  if self = 0 then .error .assertion
  else _setTree_forBranch_ release m tree self .right

/-- Embedding of `BinaryTree_release`; `fuel` bounds the depth of the recursion
through `_setTree_forBranch_`. -/
def BinaryTree_release : Nat → TreeMem → Nat → Except Fault TreeMem
  | 0, _, _ => .error .outOfFuel
  | fuel + 1, m, self =>
    if self = 0 then .error .assertion
    else
      match m.heap self with
      | none => .error .invalidAccess
      | some t =>
        let rc := (t.refCount + UINT_MODULUS - 1) % UINT_MODULUS
        let m1 := m.store self { t with refCount := rc }
        if rc = 0 then
          match setLeftTreeWith (BinaryTree_release fuel) m1 self 0 with
          | .error e => .error e
          | .ok (_, m2) =>
            match setRightTreeWith (BinaryTree_release fuel) m2 self 0 with
            | .error e => .error e
            | .ok (_, m3) =>
              match BinaryTree_setValue_ m3 self 0 with
              | .error e => .error e
              | .ok (_, m4) => .ok { m4 with heap := Function.update m4.heap self none }
        else
          .ok m1

/-- Embedding of `BinaryTree_setLeftTree_`. -/
def BinaryTree_setLeftTree_ (fuel : Nat) (m : TreeMem) (self : Nat) (tree : Nat) :
    Except Fault (Nat × TreeMem) :=
  setLeftTreeWith (BinaryTree_release fuel) m self tree

/-- Embedding of `BinaryTree_setRightTree_`. -/
def BinaryTree_setRightTree_ (fuel : Nat) (m : TreeMem) (self : Nat) (tree : Nat) :
    Except Fault (Nat × TreeMem) :=
  setRightTreeWith (BinaryTree_release fuel) m self tree

/-- Embedding of `BinaryTree_newWithValue_freeFunction_`; `a` is what `malloc`
returned (`0` for `NULL`). -/
def BinaryTree_newWithValue_freeFunction_ (m : TreeMem) (a : Nat) (value : Nat)
    (freeFunction : Nat) : Except Fault (Nat × TreeMem) :=
  if a ≠ 0 then
    let m1 := m.store a
      { refCount := 0, freeFunction := 0, parent := 0, value := 0, left := 0, right := 0 }
    match BinaryTree_setValue_freeFunction_ m1 a value freeFunction with
    | .error e => .error e
    | .ok (_, m2) => BinaryTree_retain m2 a
  else
    .ok (a, m)

/-- Embedding of `BinaryTree_newWithValue_`. -/
def BinaryTree_newWithValue_ (m : TreeMem) (a : Nat) (value : Nat) :
    Except Fault (Nat × TreeMem) :=
  BinaryTree_newWithValue_freeFunction_ m a value BINARY_TREE_FREE

/-- Embedding of `BinaryTree_new`. -/
def BinaryTree_new (m : TreeMem) (a : Nat) : Except Fault (Nat × TreeMem) :=
  BinaryTree_newWithValue_ m a 0

/-- Embedding of `BinaryTree_leftTree`. -/
def BinaryTree_leftTree (m : TreeMem) (self : Nat) : Except Fault Nat :=
  if self = 0 then .error .assertion
  else match m.heap self with
    | none => .error .invalidAccess
    | some t => .ok t.left

/-- Embedding of `BinaryTree_rightTree`. -/
def BinaryTree_rightTree (m : TreeMem) (self : Nat) : Except Fault Nat :=
  if self = 0 then .error .assertion
  else match m.heap self with
    | none => .error .invalidAccess
    | some t => .ok t.right

/-- Embedding of `BinaryTree_parent`. -/
def BinaryTree_parent (m : TreeMem) (self : Nat) : Except Fault Nat :=
  if self = 0 then .error .assertion
  else match m.heap self with
    | none => .error .invalidAccess
    | some t => .ok t.parent

/-- Embedding of `BinaryTree_value`. -/
def BinaryTree_value (m : TreeMem) (self : Nat) : Except Fault Nat :=
  if self = 0 then .error .assertion
  else match m.heap self with
    | none => .error .invalidAccess
    | some t => .ok t.value

/-- Embedding of `BinaryTree_isLeafNode`. -/
def BinaryTree_isLeafNode (m : TreeMem) (self : Nat) : Except Fault Nat :=
  if self = 0 then .error .assertion
  else match m.heap self with
    | none => .error .invalidAccess
    | some t => .ok (if t.left = 0 ∧ t.right = 0 then 1 else 0)

/-! ## Vocabulary for the queue properties -/

/-- One queued element as it lies in memory: the address of its node, the stored
value and the free function stored with it. -/
structure Elem where
  /-- Address of the `QueueNode`. -/
  addr : Nat
  /-- The stored value. -/
  data : Nat
  /-- The stored free function (`0` for none). -/
  freeFunction : Nat
  deriving DecidableEq

/-- `Chain nodes p es`: starting at `p` and following `next`, one meets exactly the
nodes of `es`, in that order, and then `NULL`. -/
def Chain (nodes : Nat → Option QueueNode) : Nat → List Elem → Prop
  | p, [] => p = 0
  | p, e :: es =>
    p = e.addr ∧ e.addr ≠ 0 ∧
      ∃ nx, nodes e.addr = some { data := e.data, next := nx, freeFunction := e.freeFunction } ∧
        Chain nodes nx es

/-- Address of the first element, `NULL` for no element. -/
def headAddr : List Elem → Nat
  | [] => 0
  | e :: _ => e.addr

/-- Address of the last element, `NULL` for no element. -/
def lastAddr : List Elem → Nat
  | [] => 0
  | [e] => e.addr
  | _ :: e :: es => lastAddr (e :: es)

/-- The queue object of `s` is live and well formed, holding the elements `es`
(oldest first): `head` starts the chain of their nodes, `tail` is the last of them,
`count` is their number, and the nodes are distinct objects at pointer-sized
addresses. -/
def Represents (s : QueueMem) (es : List Elem) : Prop :=
  ∃ q, s.self = some q ∧ Chain s.nodes q.head es ∧ q.tail = lastAddr es ∧
    q.count = es.length ∧ (es.map Elem.addr).Nodup ∧ ∀ e ∈ es, e.addr < SIZE_MODULUS

/-- The free-function invocations a teardown makes for the elements `es`: one per
element with a free function and a non-`NULL` value, oldest element first. -/
def teardownCalls (es : List Elem) : List (Nat × Nat) :=
  es.filterMap fun e =>
    if e.freeFunction ≠ 0 ∧ e.data ≠ 0 then some (e.freeFunction, e.data) else none

/-- The free-function invocations for `es` if every element with a free function
had it invoked on its value, whatever the value. -/
def destructorCalls (es : List Elem) : List (Nat × Nat) :=
  es.filterMap fun e => if e.freeFunction ≠ 0 then some (e.freeFunction, e.data) else none

/-- An operation of a client on one queue. -/
inductive QueueOp where
  /-- `Queue_insert_withFreeFunction_`, with the address `malloc` returns for the node. -/
  | insert (a : Nat) (data : Nat) (freeFunction : Nat)
  /-- `Queue_remove_`. -/
  | remove
  deriving DecidableEq

/-- What an operation gave back. -/
inductive OpResult where
  /-- Return value of an insert. -/
  | inserted (ret : Nat)
  /-- Return value and `*data` of a remove. -/
  | removed (ret : Nat) (data : Nat)
  deriving DecidableEq

/-- Run operations in order, collecting what each gave back. -/
def runOps : QueueMem → List QueueOp → Except Fault (List OpResult × QueueMem)
  | s, [] => .ok ([], s)
  | s, .insert a data freeFunction :: ops =>
    match Queue_insert_withFreeFunction_ s a data freeFunction with
    | .error e => .error e
    | .ok (ret, s1) =>
      match runOps s1 ops with
      | .error e => .error e
      | .ok (rs, s2) => .ok (.inserted ret :: rs, s2)
  | s, .remove :: ops =>
    match Queue_remove_ s with
    | .error e => .error e
    | .ok (ret, data, s1) =>
      match runOps s1 ops with
      | .error e => .error e
      | .ok (rs, s2) => .ok (.removed ret data :: rs, s2)

/-- Every insert of the run gets from `malloc` an address it can return: not `NULL`,
pointer-sized, and not the address of a node that is allocated at that moment. -/
def mallocOk : QueueMem → List QueueOp → Bool
  | _, [] => true
  | s, .insert a data freeFunction :: ops =>
    decide (a ≠ 0) && decide (a < SIZE_MODULUS) && decide (s.nodes a = none) &&
      (match Queue_insert_withFreeFunction_ s a data freeFunction with
       | .error _ => true
       | .ok (_, s1) => mallocOk s1 ops)
  | s, .remove :: ops =>
    match Queue_remove_ s with
    | .error _ => true
    | .ok (_, _, s1) => mallocOk s1 ops

/-- Number of inserts among the results. -/
def insertsDone : List OpResult → Nat
  | [] => 0
  | .inserted _ :: rs => insertsDone rs + 1
  | .removed _ _ :: rs => insertsDone rs

/-- Number of removes that returned success among the results. -/
def removesDone : List OpResult → Nat
  | [] => 0
  | .inserted _ :: rs => removesDone rs
  | .removed ret _ :: rs => if ret = 1 then removesDone rs + 1 else removesDone rs

/-- The operations inserting `xs` in order. -/
def insertOps (xs : List Elem) : List QueueOp :=
  xs.map fun x => .insert x.addr x.data x.freeFunction

/-- Inserts of the value `0` without free function, the nodes being allocated at the
addresses `32, 64, ..., 32 * n`. -/
def manyInserts (n : Nat) : List QueueOp :=
  (List.range n).map fun i => .insert (32 * (i + 1)) 0 0

/-- A sample memory, as `Queue_new` (on a block whose `refcount` bytes hold 1) and
two inserts leave it: a queue with reference count 1 holding the value 5 with free
function 7 (node at 32) and then the value 0 with free function 9 (node at 64). -/
def sampleQueueMem : QueueMem :=
  { self := some { refcount := 1, head := 32, tail := 64, count := 2 }
    nodes := Function.update
      (Function.update
        (Function.update (fun _ => none) 32 (some { data := 5, next := 0, freeFunction := 7 }))
        64 (some { data := 0, next := 0, freeFunction := 9 }))
      32 (some { data := 5, next := 64, freeFunction := 7 })
    calls := [] }

/-- The elements of `sampleQueueMem`. -/
def sampleElems : List Elem :=
  [{ addr := 32, data := 5, freeFunction := 7 }, { addr := 64, data := 0, freeFunction := 9 }]

/-! ## Vocabulary for the tree properties -/

/-- A finite binary tree as it lies in memory: for each node its address, value,
free function and parent field, and its two subtrees. -/
inductive Shape where
  /-- No node: the branch is `NULL`. -/
  | nil
  /-- A node with its fields and subtrees. -/
  | node (addr : Nat) (value : Nat) (freeFunction : Nat) (parent : Nat) (l : Shape) (r : Shape)

/-- Pointer to the root of the tree, `NULL` for no node. -/
def Shape.root : Shape → Nat
  | .nil => 0
  | .node a _ _ _ _ _ => a

/-- Addresses of the nodes of the tree. -/
def Shape.addrs : Shape → List Nat
  | .nil => []
  | .node a _ _ _ l r => a :: (l.addrs ++ r.addrs)

/-- Number of nodes on the longest path from the root down. -/
def Shape.height : Shape → Nat
  | .nil => 0
  | .node _ _ _ _ l r => max l.height r.height + 1

/-- One `(free function, value)` per node that has a free function: first those of
the left subtree, then those of the right subtree, then the node's own. -/
def Shape.destructorCalls : Shape → List (Nat × Nat)
  | .nil => []
  | .node _ v f _ l r =>
    l.destructorCalls ++ r.destructorCalls ++ (if f ≠ 0 then [(f, v)] else [])

/-- The memory holds the tree `t`, every node of it with reference count 1 and
with its branches pointing to the roots of its subtrees. -/
def SolelyOwned (heap : Nat → Option BinaryTree) : Shape → Prop
  | .nil => True
  | .node a v f p l r =>
    a ≠ 0 ∧
    heap a = some { refCount := 1, freeFunction := f, parent := p, value := v,
                    left := l.root, right := r.root } ∧
    SolelyOwned heap l ∧ SolelyOwned heap r

/-- A sample run: `R` is created at 64 with value 1 and free function 7, `L` at 128
with value 2 and no free function; `L` becomes the left tree of `R` and the
creator's reference to `L` is released. -/
def sampleTreeRun : Except Fault TreeMem :=
  match BinaryTree_newWithValue_freeFunction_ TreeMem.empty 64 1 7 with
  | .error e => .error e
  | .ok (r, m1) =>
    match BinaryTree_newWithValue_ m1 128 2 with
    | .error e => .error e
    | .ok (l, m2) =>
      match BinaryTree_setLeftTree_ 1 m2 r l with
      | .error e => .error e
      | .ok (_, m3) => BinaryTree_release 1 m3 l

/-- The memory the sample run ends in. -/
def sampleTreeMem : TreeMem :=
  match sampleTreeRun with
  | .ok m => m
  | .error _ => TreeMem.empty

/-- The tree the sample run builds. -/
def sampleShape : Shape :=
  .node 64 1 7 0 (.node 128 2 0 128 .nil .nil) .nil

/-- `n` successive calls of `BinaryTree_retain` on `self`. -/
def retainTimes : Nat → TreeMem → Nat → Except Fault TreeMem
  | 0, m, _ => .ok m
  | n + 1, m, self =>
    match BinaryTree_retain m self with
    | .error e => .error e
    | .ok (_, m1) => retainTimes n m1 self

/-- The branch field `b` of a node. -/
def BinaryTree.branch (t : BinaryTree) : Branch → Nat
  | .left => t.left
  | .right => t.right

/-- `BinaryTree_setLeftTree_` or `BinaryTree_setRightTree_`, by branch. -/
def setTreeAt (b : Branch) (fuel : Nat) (m : TreeMem) (self : Nat) (tree : Nat) :
    Except Fault (Nat × TreeMem) :=
  match b with
  | .left => BinaryTree_setLeftTree_ fuel m self tree
  | .right => BinaryTree_setRightTree_ fuel m self tree

/-- What hangs in a branch slot, as a release of that slot sees it: nothing, a node
that somebody else holds too (reference count at least 2), or a node held through
this slot only (reference count 1) with what hangs in its own two slots. -/
inductive Sub where
  /-- The slot is `NULL`. -/
  | nil
  /-- A node with other owners; `node` is its content. -/
  | shared (addr : Nat) (node : BinaryTree)
  /-- A node with no other owner, its fields, and its two slots. -/
  | owned (addr : Nat) (value : Nat) (freeFunction : Nat) (parent : Nat) (l : Sub) (r : Sub)

/-- The pointer in the slot. -/
def Sub.root : Sub → Nat
  | .nil => 0
  | .shared a _ => a
  | .owned a _ _ _ _ _ => a

/-- Addresses of all the nodes mentioned. -/
def Sub.addrs : Sub → List Nat
  | .nil => []
  | .shared a _ => [a]
  | .owned a _ _ _ l r => a :: (l.addrs ++ r.addrs)

/-- Addresses of the nodes without other owners. -/
def Sub.ownedAddrs : Sub → List Nat
  | .nil => []
  | .shared _ _ => []
  | .owned a _ _ _ l r => a :: (l.ownedAddrs ++ r.ownedAddrs)

/-- The nodes with other owners, with their content. -/
def Sub.sharedNodes : Sub → List (Nat × BinaryTree)
  | .nil => []
  | .shared a t => [(a, t)]
  | .owned _ _ _ _ l r => l.sharedNodes ++ r.sharedNodes

/-- Number of nodes on the longest path from the slot down. -/
def Sub.height : Sub → Nat
  | .nil => 0
  | .shared _ _ => 1
  | .owned _ _ _ _ l r => max l.height r.height + 1

/-- One `(free function, value)` per node without other owners that has a free
function: left slot first, then right slot, then the node itself; nothing for the
nodes with other owners. -/
def Sub.destructorCalls : Sub → List (Nat × Nat)
  | .nil => []
  | .shared _ _ => []
  | .owned _ v f _ l r =>
    l.destructorCalls ++ r.destructorCalls ++ (if f ≠ 0 then [(f, v)] else [])

/-- The memory holds what `t` describes. -/
def Held (heap : Nat → Option BinaryTree) : Sub → Prop
  | .nil => True
  | .shared a t => a ≠ 0 ∧ heap a = some t ∧ 2 ≤ t.refCount ∧ t.refCount < UINT_MODULUS
  | .owned a v f p l r =>
    a ≠ 0 ∧
    heap a = some { refCount := 1, freeFunction := f, parent := p, value := v,
                    left := l.root, right := r.root } ∧
    Held heap l ∧ Held heap r

/-- The nodes without other owners in post-order (left slot, right slot, node), each
as `(address, value, free function)`. -/
def Sub.postorder : Sub → List (Nat × Nat × Nat)
  | .nil => []
  | .shared _ _ => []
  | .owned a v f _ l r => l.postorder ++ r.postorder ++ [(a, v, f)]

/-- The free-function invocations for a sequence of nodes `(address, value, free
function)`: in that order, one `(free function, value)` per node that has a free
function. -/
def callsOf (nodes : List (Nat × Nat × Nat)) : List (Nat × Nat) :=
  nodes.filterMap fun n => if n.2.2 ≠ 0 then some (n.2.2, n.2.1) else none

/-- A sample run: `R` is created at 64 with value 1 and free function 7, `L` at 128
with value 2 and free function 9; `L` becomes the left tree of `R` while its creator
keeps its own reference to it. -/
def sharedChildRun : Except Fault TreeMem :=
  match BinaryTree_newWithValue_freeFunction_ TreeMem.empty 64 1 7 with
  | .error e => .error e
  | .ok (r, m1) =>
    match BinaryTree_newWithValue_freeFunction_ m1 128 2 9 with
    | .error e => .error e
    | .ok (l, m2) =>
      match BinaryTree_setLeftTree_ 1 m2 r l with
      | .error e => .error e
      | .ok (_, m3) => .ok m3

/-- The memory the run `sharedChildRun` ends in. -/
def sharedChildMem : TreeMem :=
  match sharedChildRun with
  | .ok m => m
  | .error _ => TreeMem.empty

/-- A sample memory: a root at 64 (value 1, free function 7) whose left tree is the
node at 128 (value 2, free function 8) and whose right tree is the node at 192
(value 3, free function 9); all three have reference count 1. -/
def threeNodeMem : TreeMem :=
  ((TreeMem.empty.store 64 ⟨1, 7, 0, 1, 128, 192⟩).store 128 ⟨1, 8, 128, 2, 0, 0⟩).store 192
    ⟨1, 9, 192, 3, 0, 0⟩

/-- The tree in `threeNodeMem`. -/
def threeNodeSub : Sub :=
  .owned 64 1 7 0 (.owned 128 2 8 128 .nil .nil) (.owned 192 3 9 192 .nil .nil)

/-! ## Facts about the queue -/

theorem length_lt_of_nodup_of_bounded (l : List Nat) (n : Nat) (hn : 0 < n) (hnd : l.Nodup)
    (hb : ∀ x ∈ l, x ≠ 0 ∧ x < n) : l.length < n := by
  have hsub : l.toFinset ⊆ Finset.Ico 1 n := by
    intro x hx
    have := hb x (List.mem_toFinset.mp hx)
    simp only [Finset.mem_Ico]
    omega
  have hcard := Finset.card_le_card hsub
  rw [List.toFinset_card_of_nodup hnd, Nat.card_Ico] at hcard
  omega

theorem succ_add_sub_one_mod (M n : Nat) (h : n < M) : (n + 1 + M - 1) % M = n := by
  have : n + 1 + M - 1 = n + M := by omega
  rw [this, Nat.add_mod_right, Nat.mod_eq_of_lt h]

theorem chain_frame {nodes nodes' : Nat → Option QueueNode} :
    ∀ (es : List Elem) (p : Nat), Chain nodes p es →
      (∀ e ∈ es, nodes' e.addr = nodes e.addr) → Chain nodes' p es
  | [], _, h, _ => h
  | e :: es, _, h, hf => by
    obtain ⟨hp, h0, nx, hn, hc⟩ := h
    refine ⟨hp, h0, nx, ?_, chain_frame es nx hc fun x hx => hf x (List.mem_cons_of_mem _ hx)⟩
    rw [hf e (List.mem_cons_self _ _), hn]

theorem Chain.live {nodes : Nat → Option QueueNode} :
    ∀ (es : List Elem) (p : Nat), Chain nodes p es →
      ∀ e ∈ es, e.addr ≠ 0 ∧ ∃ nx, nodes e.addr =
        some { data := e.data, next := nx, freeFunction := e.freeFunction }
  | [], _, _, e, he => by simp at he
  | x :: es, _, h, e, he => by
    obtain ⟨_, h0, nx, hn, hc⟩ := h
    rcases List.mem_cons.mp he with rfl | he
    · exact ⟨h0, nx, hn⟩
    · exact Chain.live es nx hc e he

theorem lastAddr_mem : ∀ (es : List Elem), es ≠ [] → lastAddr es ∈ es.map Elem.addr
  | [], h => absurd rfl h
  | [e], _ => by simp [lastAddr]
  | e :: e2 :: es, _ => by
    have := lastAddr_mem (e2 :: es) (by simp)
    simp only [lastAddr, List.map_cons, List.mem_cons] at this ⊢
    exact Or.inr this

theorem lastAddr_append_singleton : ∀ (es : List Elem) (x : Elem), lastAddr (es ++ [x]) = x.addr
  | [], _ => rfl
  | [e], _ => rfl
  | e :: e2 :: es, x => by
    have := lastAddr_append_singleton (e2 :: es) x
    simpa [lastAddr] using this

theorem Chain.snoc {nodes : Nat → Option QueueNode} (a d f : Nat) (ha0 : a ≠ 0) :
    ∀ (es : List Elem) (p : Nat), Chain nodes p es → es ≠ [] → (es.map Elem.addr).Nodup →
      a ∉ es.map Elem.addr → ∀ tn, nodes (lastAddr es) = some tn →
      Chain (Function.update
          (Function.update nodes a (some { data := d, next := 0, freeFunction := f }))
          (lastAddr es) (some { tn with next := a }))
        p (es ++ [{ addr := a, data := d, freeFunction := f }])
  | [], _, _, hne, _, _, _, _ => absurd rfl hne
  | [e], p, h, _, _, hna, tn, htn => by
    obtain ⟨hp, h0, nx, hn, _⟩ := h
    have hae : a ≠ e.addr := by
      intro h; apply hna; simp [h]
    simp only [lastAddr] at htn ⊢
    rw [hn] at htn
    cases htn
    refine ⟨hp, h0, a, by simp, rfl, ha0, 0, ?_, rfl⟩
    simp [Function.update_noteq hae]
  | e :: e2 :: es, p, h, _, hnd, hna, tn, htn => by
    obtain ⟨hp, h0, nx, hn, hc⟩ := h
    have hnd' : ((e2 :: es).map Elem.addr).Nodup := (List.nodup_cons.mp hnd).2
    have hel : e.addr ≠ lastAddr (e2 :: es) := by
      intro h
      exact (List.nodup_cons.mp hnd).1 (h ▸ lastAddr_mem (e2 :: es) (by simp))
    have hea : e.addr ≠ a := by
      intro h; apply hna; simp [h]
    have hna' : a ∉ (e2 :: es).map Elem.addr := by
      intro h; exact hna (List.mem_cons_of_mem _ h)
    have ih := Chain.snoc a d f ha0 (e2 :: es) nx hc (by simp) hnd' hna' tn htn
    refine ⟨hp, h0, nx, ?_, ih⟩
    show Function.update _ (lastAddr (e2 :: es)) _ e.addr = _
    rw [Function.update_noteq hel, Function.update_noteq hea, hn]

theorem Represents.length_lt {s : QueueMem} {es : List Elem} (h : Represents s es) :
    es.length < SIZE_MODULUS := by
  obtain ⟨q, _, hch, _, _, hnd, hb⟩ := h
  have := length_lt_of_nodup_of_bounded (es.map Elem.addr) SIZE_MODULUS (by decide) hnd (by
    intro x hx
    obtain ⟨e, he, rfl⟩ := List.mem_map.mp hx
    exact ⟨(Chain.live es _ hch e he).1, hb e he⟩)
  simpa using this

theorem Queue_new_represents (raw : Queue) :
    ∃ s, Queue_new (some raw) = some s ∧ Represents s [] ∧ s.calls = [] ∧
      s.self = some { raw with head := 0, tail := 0, count := 0 } ∧ s.nodes = fun _ => none :=
  ⟨_, rfl, ⟨_, rfl, rfl, rfl, rfl, List.nodup_nil, by simp⟩, rfl, rfl, rfl⟩

theorem insert_represents {s : QueueMem} {es : List Elem} (h : Represents s es)
    (a d f : Nat) (ha0 : a ≠ 0) (hlt : a < SIZE_MODULUS) (hfresh : s.nodes a = none) :
    ∃ s', Queue_insert_withFreeFunction_ s a d f = .ok (1, s') ∧
      Represents s' (es ++ [{ addr := a, data := d, freeFunction := f }]) ∧
      s'.calls = s.calls ∧
      (∀ q, s.self = some q → ∃ q', s'.self = some q' ∧ q'.refcount = q.refcount) ∧
      (∀ b, b ≠ a → s.nodes b = none → s'.nodes b = none) := by
  have hlen := h.length_lt
  obtain ⟨q, hq, hch, htail, hcnt, hnd, hb⟩ := h
  have hna : a ∉ es.map Elem.addr := by
    intro hx
    obtain ⟨e, he, rfl⟩ := List.mem_map.mp hx
    obtain ⟨_, nx, hn⟩ := Chain.live es _ hch e he
    rw [hfresh] at hn
    cases hn
  have hnd' : ((es ++ [(⟨a, d, f⟩ : Elem)]).map Elem.addr).Nodup := by
    simp only [List.map_append, List.map_cons, List.map_nil]
    exact List.Nodup.append hnd (List.nodup_singleton _) (by simpa using hna)
  have hb' : ∀ e ∈ es ++ [(⟨a, d, f⟩ : Elem)], e.addr < SIZE_MODULUS := by
    intro e he
    rcases List.mem_append.mp he with he | he
    · exact hb e he
    · simp at he; subst he; exact hlt
  have hlen' := length_lt_of_nodup_of_bounded _ SIZE_MODULUS (by decide) hnd' (by
    intro x hx
    obtain ⟨e, he, rfl⟩ := List.mem_map.mp hx
    refine ⟨?_, hb' e he⟩
    rcases List.mem_append.mp he with he | he
    · exact (Chain.live es _ hch e he).1
    · simp at he; subst he; exact ha0)
  simp only [List.length_map, List.length_append, List.length_singleton] at hlen'
  have hcount : (q.count + 1) % SIZE_MODULUS = (es ++ [(⟨a, d, f⟩ : Elem)]).length := by
    rw [hcnt, Nat.mod_eq_of_lt hlen']; simp
  rcases es with _ | ⟨e0, es0⟩
  · have ht : q.tail = 0 := htail
    refine ⟨{ s with
        self := some { q with tail := a, head := a, count := (q.count + 1) % SIZE_MODULUS }
        nodes := Function.update s.nodes a (some { data := d, next := 0, freeFunction := f }) },
      ?_, ⟨_, rfl, ?_, ?_, hcount, hnd', hb'⟩, rfl, ?_, ?_⟩
    · simp [Queue_insert_withFreeFunction_, hq, ht, QueueNode_newWithData_freeFunction_, ha0]
    · exact ⟨rfl, ha0, 0, by simp, rfl⟩
    · rfl
    · intro q0 hq0
      rw [hq] at hq0; cases hq0
      exact ⟨_, rfl, rfl⟩
    · intro b hba hb0
      show Function.update s.nodes a _ b = none
      rw [Function.update_noteq hba, hb0]
  · have hmem := lastAddr_mem (e0 :: es0) (by simp)
    obtain ⟨et, het, hetl⟩ := List.mem_map.mp hmem
    obtain ⟨ht0, nx, htn⟩ := Chain.live _ _ hch et het
    rw [hetl] at ht0 htn
    have hta : lastAddr (e0 :: es0) ≠ a := by
      intro h; exact hna (h ▸ hmem)
    have ht : q.tail ≠ 0 := by rw [htail]; exact ht0
    refine ⟨{ s with
        self := some { q with tail := a, count := (q.count + 1) % SIZE_MODULUS }
        nodes := Function.update
          (Function.update s.nodes a (some { data := d, next := 0, freeFunction := f }))
          (lastAddr (e0 :: es0)) (some { data := et.data, next := a,
                                         freeFunction := et.freeFunction }) },
      ?_, ⟨_, rfl, ?_, ?_, hcount, hnd', hb'⟩, rfl, ?_, ?_⟩
    · simp only [Queue_insert_withFreeFunction_, hq, ht, QueueNode_newWithData_freeFunction_,
        ha0, if_false, ne_eq, not_false_eq_true, if_true]
      rw [htail, Function.update_noteq hta, htn]
    · exact Chain.snoc a d f ha0 _ _ hch (by simp) hnd hna _ htn
    · exact (lastAddr_append_singleton (e0 :: es0) ⟨a, d, f⟩).symm
    · intro q0 hq0
      rw [hq] at hq0; cases hq0
      exact ⟨_, rfl, rfl⟩
    · intro b hba hb0
      have hbt : b ≠ lastAddr (e0 :: es0) := by
        intro h; rw [h, htn] at hb0; cases hb0
      show Function.update (Function.update s.nodes a _) _ _ b = none
      rw [Function.update_noteq hbt, Function.update_noteq hba, hb0]

theorem remove_represents_cons {s : QueueMem} {e : Elem} {es : List Elem}
    (h : Represents s (e :: es)) :
    ∃ s', Queue_remove_ s = .ok (1, e.data, s') ∧ Represents s' es ∧ s'.calls = s.calls ∧
      s'.nodes = Function.update s.nodes e.addr none ∧
      (∀ q, s.self = some q → ∃ q', s'.self = some q' ∧ q'.refcount = q.refcount ∧
        q'.head = headAddr es) := by
  have hlen := h.length_lt
  obtain ⟨q, hq, hch, htail, hcnt, hnd, hb⟩ := h
  obtain ⟨hp, h0, nx, hn, hc⟩ := hch
  have hh : q.head ≠ 0 := by rw [hp]; exact h0
  have hnd' : (es.map Elem.addr).Nodup := (List.nodup_cons.mp hnd).2
  have hnotin : e.addr ∉ es.map Elem.addr := (List.nodup_cons.mp hnd).1
  have hc' : Chain (Function.update s.nodes e.addr none) nx es := by
    refine chain_frame es nx hc fun x hx => ?_
    have : x.addr ≠ e.addr := by
      intro h; exact hnotin (h ▸ List.mem_map_of_mem _ hx)
    exact Function.update_noteq this _ _
  have hcount : (q.count + SIZE_MODULUS - 1) % SIZE_MODULUS = es.length := by
    rw [hcnt]
    exact succ_add_sub_one_mod _ _ (Nat.lt_of_succ_lt hlen)
  have hnx : nx = headAddr es := by
    cases es with
    | nil => exact hc
    | cons x xs => exact hc.1
  refine ⟨{ s with
      self := some { q with head := nx, count := (q.count + SIZE_MODULUS - 1) % SIZE_MODULUS,
                            tail := if nx = 0 then 0 else q.tail }
      nodes := Function.update s.nodes e.addr none },
    ?_, ⟨_, rfl, ?_, ?_, hcount, hnd', fun x hx => hb x (List.mem_cons_of_mem _ hx)⟩,
    rfl, ?_, ?_⟩
  · simp only [Queue_remove_, hq, hh, if_false]
    rw [hp, hn]
  · exact hc'
  · show (if nx = 0 then 0 else q.tail) = lastAddr es
    cases es with
    | nil => simp [hnx, lastAddr, headAddr]
    | cons x xs =>
      have : nx ≠ 0 := by rw [hnx]; exact hc.2.1
      simp [this, htail, lastAddr]
  · rfl
  · intro q0 hq0
    rw [hq] at hq0; cases hq0
    exact ⟨_, rfl, rfl, hnx⟩

theorem remove_represents_nil {s : QueueMem} (h : Represents s []) :
    Queue_remove_ s = .ok (0, 0, s) := by
  obtain ⟨q, hq, hch, _⟩ := h
  have hh : q.head = 0 := hch
  simp [Queue_remove_, hq, hh]

theorem runOps_append (ops1 : List QueueOp) : ∀ (s : QueueMem) (ops2 : List QueueOp),
    runOps s (ops1 ++ ops2) =
      match runOps s ops1 with
      | .error e => .error e
      | .ok (rs1, s1) =>
        match runOps s1 ops2 with
        | .error e => .error e
        | .ok (rs2, s2) => .ok (rs1 ++ rs2, s2) := by
  induction ops1 with
  | nil =>
    intro s ops2
    simp only [List.nil_append, runOps]
    cases runOps s ops2 <;> rfl
  | cons op ops ih =>
    intro s ops2
    cases op with
    | insert a d f =>
      simp only [List.cons_append, runOps, List.append_eq, ih]
      cases Queue_insert_withFreeFunction_ s a d f with
      | error e => rfl
      | ok r =>
        obtain ⟨ret, s1⟩ := r
        simp only
        cases runOps s1 ops with
        | error e => rfl
        | ok r1 =>
          obtain ⟨rs1, s2⟩ := r1
          simp only
          cases runOps s2 ops2 <;> rfl
    | remove =>
      simp only [List.cons_append, runOps, List.append_eq, ih]
      cases Queue_remove_ s with
      | error e => rfl
      | ok r =>
        obtain ⟨ret, data, s1⟩ := r
        simp only
        cases runOps s1 ops with
        | error e => rfl
        | ok r1 =>
          obtain ⟨rs1, s2⟩ := r1
          simp only
          cases runOps s2 ops2 <;> rfl

theorem runOps_inserts : ∀ (xs : List Elem) (s : QueueMem) (es : List Elem),
    Represents s es →
    (∀ x ∈ xs, x.addr ≠ 0 ∧ x.addr < SIZE_MODULUS ∧ s.nodes x.addr = none) →
    (xs.map Elem.addr).Nodup →
    ∃ s1, runOps s (insertOps xs) = .ok (xs.map (fun _ => .inserted 1), s1) ∧
      Represents s1 (es ++ xs) ∧ s1.calls = s.calls ∧
      (∀ q, s.self = some q → ∃ q', s1.self = some q' ∧ q'.refcount = q.refcount)
  | [], s, es, h, _, _ => ⟨s, rfl, by simpa using h, rfl, fun q hq => ⟨q, hq, rfl⟩⟩
  | x :: xs, s, es, h, hx, hnd => by
    obtain ⟨hx0, hxlt, hxf⟩ := hx x (List.mem_cons_self _ _)
    obtain ⟨s', hins, hrep, hcalls, hrc, hframe⟩ :=
      insert_represents h x.addr x.data x.freeFunction hx0 hxlt hxf
    have hnd2 := List.nodup_cons.mp hnd
    obtain ⟨s1, hrun, hrep1, hcalls1, hrc1⟩ := runOps_inserts xs s' (es ++ [x]) hrep
      (fun y hy => by
        obtain ⟨hy0, hylt, hyf⟩ := hx y (List.mem_cons_of_mem _ hy)
        refine ⟨hy0, hylt, hframe _ ?_ hyf⟩
        intro h
        exact hnd2.1 (h ▸ List.mem_map_of_mem _ hy))
      hnd2.2
    refine ⟨s1, ?_, by simpa using hrep1, hcalls1.trans hcalls, ?_⟩
    · simp only [insertOps, List.map_cons, runOps, hins]
      have : runOps s' (List.map (fun x => QueueOp.insert x.addr x.data x.freeFunction) xs)
          = .ok (xs.map (fun _ => .inserted 1), s1) := hrun
      rw [this]
    · intro q hq
      obtain ⟨q', hq', hr'⟩ := hrc q hq
      obtain ⟨q'', hq'', hr''⟩ := hrc1 q' hq'
      exact ⟨q'', hq'', hr''.trans hr'⟩

theorem runOps_removes : ∀ (xs : List Elem) (s : QueueMem), Represents s xs →
    ∃ s1, runOps s (List.replicate xs.length .remove)
        = .ok (xs.map (fun x => .removed 1 x.data), s1) ∧
      Represents s1 [] ∧ s1.calls = s.calls
  | [], s, h => ⟨s, rfl, h, rfl⟩
  | x :: xs, s, h => by
    obtain ⟨s', hrem, hrep, hcalls, _, _⟩ := remove_represents_cons h
    obtain ⟨s1, hrun, hrep1, hcalls1⟩ := runOps_removes xs s' hrep
    refine ⟨s1, ?_, hrep1, hcalls1.trans hcalls⟩
    simp only [List.length_cons, List.replicate_succ, runOps, hrem, hrun, List.map_cons]

theorem run_invariant : ∀ (ops : List QueueOp) (s : QueueMem) (es : List Elem),
    Represents s es → mallocOk s ops = true →
    ∃ rs s1 es1, runOps s ops = .ok (rs, s1) ∧ Represents s1 es1 ∧
      es.length + insertsDone rs = es1.length + removesDone rs ∧ s1.calls = s.calls ∧
      (∀ x ∈ es1, x ∈ es ∨ QueueOp.insert x.addr x.data x.freeFunction ∈ ops)
  | [], s, es, h, _ => ⟨[], s, es, rfl, h, rfl, rfl, fun _ hx => Or.inl hx⟩
  | .insert a d f :: ops, s, es, h, hm => by
    simp only [mallocOk, Bool.and_eq_true, decide_eq_true_eq] at hm
    obtain ⟨⟨⟨ha0, hlt⟩, hfresh⟩, hrest⟩ := hm
    obtain ⟨s', hins, hrep, hcalls, _, _⟩ := insert_represents h a d f ha0 hlt hfresh
    rw [hins] at hrest
    obtain ⟨rs, s1, es1, hrun, hrep1, hlen, hcalls1, hprov⟩ :=
      run_invariant ops s' _ hrep hrest
    refine ⟨.inserted 1 :: rs, s1, es1, ?_, hrep1, ?_, hcalls1.trans hcalls, ?_⟩
    · simp only [runOps, hins, hrun]
    · simp only [List.length_append, List.length_singleton] at hlen
      simp only [insertsDone, removesDone]
      omega
    · intro x hx
      rcases hprov x hx with h1 | h1
      · rcases List.mem_append.mp h1 with h2 | h2
        · exact Or.inl h2
        · rw [List.mem_singleton] at h2
          subst h2
          exact Or.inr (List.mem_cons_self _ _)
      · exact Or.inr (List.mem_cons_of_mem _ h1)
  | .remove :: ops, s, es, h, hm => by
    simp only [mallocOk] at hm
    cases es with
    | nil =>
      have hrem := remove_represents_nil h
      rw [hrem] at hm
      obtain ⟨rs, s1, es1, hrun, hrep1, hlen, hcalls1, hprov⟩ := run_invariant ops s [] h hm
      refine ⟨.removed 0 0 :: rs, s1, es1, ?_, hrep1, ?_, hcalls1, ?_⟩
      · simp only [runOps, hrem, hrun]
      · simpa [insertsDone, removesDone] using hlen
      · intro x hx
        rcases hprov x hx with h1 | h1
        · exact Or.inl h1
        · exact Or.inr (List.mem_cons_of_mem _ h1)
    | cons e es =>
      obtain ⟨s', hrem, hrep, hcalls, _, _⟩ := remove_represents_cons h
      rw [hrem] at hm
      obtain ⟨rs, s1, es1, hrun, hrep1, hlen, hcalls1, hprov⟩ :=
        run_invariant ops s' es hrep hm
      refine ⟨.removed 1 e.data :: rs, s1, es1, ?_, hrep1, ?_, hcalls1.trans hcalls, ?_⟩
      · simp only [runOps, hrem, hrun]
      · simp only [List.length_cons, insertsDone, removesDone, if_true]
        omega
      · intro x hx
        rcases hprov x hx with h1 | h1
        · exact Or.inl (List.mem_cons_of_mem _ h1)
        · exact Or.inr (List.mem_cons_of_mem _ h1)

theorem mallocOk_take : ∀ (ops : List QueueOp) (s : QueueMem) (k : Nat),
    mallocOk s ops = true → mallocOk s (ops.take k) = true
  | [], _, k, _ => by simp [mallocOk]
  | _ :: _, _, 0, _ => by simp [mallocOk]
  | .insert a d f :: ops, s, k + 1, hm => by
    simp only [mallocOk, Bool.and_eq_true, decide_eq_true_eq, List.take_succ_cons] at hm ⊢
    refine ⟨hm.1, ?_⟩
    cases hins : Queue_insert_withFreeFunction_ s a d f with
    | error e => rfl
    | ok r =>
      have h2 := hm.2
      rw [hins] at h2
      exact mallocOk_take ops r.2 k h2
  | .remove :: ops, s, k + 1, hm => by
    simp only [mallocOk, List.take_succ_cons] at hm ⊢
    cases hrem : Queue_remove_ s with
    | error e => rfl
    | ok r =>
      rw [hrem] at hm
      exact mallocOk_take ops r.2.2 k hm

theorem Represents.count_eq {s : QueueMem} {es : List Elem} (h : Represents s es) :
    Queue_count s = .ok (es.length % UINT_MODULUS) := by
  obtain ⟨q, hq, _, _, hcnt, _, _⟩ := h
  simp [Queue_count, hq, hcnt]

theorem mallocOk_inserts : ∀ (xs : List Elem) (s : QueueMem) (es : List Elem),
    Represents s es →
    (∀ x ∈ xs, x.addr ≠ 0 ∧ x.addr < SIZE_MODULUS ∧ s.nodes x.addr = none) →
    (xs.map Elem.addr).Nodup → mallocOk s (insertOps xs) = true
  | [], _, _, _, _, _ => rfl
  | x :: xs, s, es, h, hx, hnd => by
    obtain ⟨hx0, hxlt, hxf⟩ := hx x (List.mem_cons_self _ _)
    obtain ⟨s', hins, hrep, _, _, hframe⟩ :=
      insert_represents h x.addr x.data x.freeFunction hx0 hxlt hxf
    have hnd2 := List.nodup_cons.mp hnd
    have ih := mallocOk_inserts xs s' (es ++ [x]) hrep
      (fun y hy => by
        obtain ⟨hy0, hylt, hyf⟩ := hx y (List.mem_cons_of_mem _ hy)
        refine ⟨hy0, hylt, hframe _ ?_ hyf⟩
        intro h
        exact hnd2.1 (h ▸ List.mem_map_of_mem _ hy))
      hnd2.2
    simp only [insertOps, List.map_cons, mallocOk, Bool.and_eq_true, decide_eq_true_eq, hins]
    exact ⟨⟨⟨hx0, hxlt⟩, hxf⟩, ih⟩

theorem insertsDone_map_inserted : ∀ (xs : List Elem),
    insertsDone (xs.map fun _ => OpResult.inserted 1) = xs.length ∧
      removesDone (xs.map fun _ => OpResult.inserted 1) = 0
  | [] => ⟨rfl, rfl⟩
  | _ :: xs => by
    obtain ⟨h1, h2⟩ := insertsDone_map_inserted xs
    exact ⟨by simp only [List.map_cons, insertsDone, h1, List.length_cons],
      by simp only [List.map_cons, removesDone, h2]⟩

theorem manyInserts_run (raw : Queue) (s0 : QueueMem) (n : Nat)
    (hnew : Queue_new (some raw) = some s0) (hn : 32 * n < SIZE_MODULUS) :
    mallocOk s0 (manyInserts n) = true ∧
    ∃ rs s1, runOps s0 (manyInserts n) = .ok (rs, s1) ∧
      insertsDone rs - removesDone rs = n ∧ Queue_count s1 = .ok (n % UINT_MODULUS) := by
  obtain ⟨s, hs, hrep, _, _, hnodes⟩ := Queue_new_represents raw
  have hss : s = s0 := by rw [hs] at hnew; exact Option.some.inj hnew
  subst hss
  have hops : manyInserts n =
      insertOps ((List.range n).map fun i => (⟨32 * (i + 1), 0, 0⟩ : Elem)) := by
    simp [manyInserts, insertOps, List.map_map, Function.comp_def]
  have hx : ∀ x ∈ (List.range n).map (fun i => (⟨32 * (i + 1), 0, 0⟩ : Elem)),
      x.addr ≠ 0 ∧ x.addr < SIZE_MODULUS ∧ s.nodes x.addr = none := by
    intro x hx
    obtain ⟨i, hi, rfl⟩ := List.mem_map.mp hx
    have hi' := List.mem_range.mp hi
    refine ⟨?_, ?_, by rw [hnodes]⟩
    · show 32 * (i + 1) ≠ 0
      omega
    · show 32 * (i + 1) < SIZE_MODULUS
      omega
  have hnd : (((List.range n).map fun i => (⟨32 * (i + 1), 0, 0⟩ : Elem)).map
      Elem.addr).Nodup := by
    rw [List.map_map]
    refine (List.nodup_range n).map (fun i j h => ?_)
    have h' : 32 * (i + 1) = 32 * (j + 1) := h
    omega
  refine ⟨by rw [hops]; exact mallocOk_inserts _ s [] hrep hx hnd, ?_⟩
  obtain ⟨s1, hrun, hrep1, _, _⟩ := runOps_inserts _ s [] hrep hx hnd
  obtain ⟨h1, h2⟩ :=
    insertsDone_map_inserted ((List.range n).map fun i => (⟨32 * (i + 1), 0, 0⟩ : Elem))
  refine ⟨_, s1, by rw [hops]; exact hrun, ?_, ?_⟩
  · rw [h1, h2]; simp
  · have := hrep1.count_eq
    simpa using this

theorem teardownCalls_cons (e : Elem) (es : List Elem) :
    teardownCalls (e :: es) =
      (if e.freeFunction ≠ 0 ∧ e.data ≠ 0 then [(e.freeFunction, e.data)] else []) ++
        teardownCalls es := by
  unfold teardownCalls
  by_cases h : e.freeFunction ≠ 0 ∧ e.data ≠ 0
  · rw [List.filterMap_cons_some (by rw [if_pos h])]
    simp [h]
  · rw [List.filterMap_cons_none (by rw [if_neg h])]
    simp [h]

theorem Represents.with_calls {s : QueueMem} {es : List Elem} (h : Represents s es)
    (c : List (Nat × Nat)) : Represents { s with calls := c } es := h

theorem release_loop_drains : ∀ (es : List Elem) (fuel : Nat) (s : QueueMem) (ff : Nat),
    Represents s es → es.length < fuel → (∀ e es', es = e :: es' → ff = e.freeFunction) →
    ∃ s', Queue_release_loop fuel s ff = .ok s' ∧ Represents s' [] ∧
      s'.calls = s.calls ++ teardownCalls es ∧
      (∀ e ∈ es, s'.nodes e.addr = none) ∧
      (∀ a, a ∉ es.map Elem.addr → s'.nodes a = s.nodes a)
  | _, 0, _, _, _, hf, _ => absurd hf (Nat.not_lt_zero _)
  | [], fuel + 1, s, ff, h, _, _ => by
    refine ⟨s, ?_, h, by simp [teardownCalls], by simp, fun _ _ => rfl⟩
    simp [Queue_release_loop, remove_represents_nil h]
  | e :: es, fuel + 1, s, ff, h, hf, hff => by
    obtain ⟨s1, hrem, hrep, hcalls, hnodes, hself⟩ := remove_represents_cons h
    have hffe : ff = e.freeFunction := hff e es rfl
    obtain ⟨q, hq, hch, -⟩ := id h
    obtain ⟨q1, hq1, -, hhead⟩ := hself q hq
    have hnd : e.addr ∉ es.map Elem.addr := by
      obtain ⟨_, _, _, _, _, hnd, _⟩ := h
      exact (List.nodup_cons.mp hnd).1
    -- the memory after the conditional call of the free function
    obtain ⟨s2, hs2, hs2self, hs2nodes, hs2calls⟩ :
        ∃ s2 : QueueMem, s2 = (if ff ≠ 0 ∧ e.data ≠ 0 then
            { s1 with calls := s1.calls ++ [(ff, e.data)] } else s1) ∧
          s2.self = s1.self ∧ s2.nodes = s1.nodes ∧
          s2.calls = s.calls ++
            (if e.freeFunction ≠ 0 ∧ e.data ≠ 0 then [(e.freeFunction, e.data)] else []) := by
      refine ⟨_, rfl, ?_, ?_, ?_⟩
      · split <;> rfl
      · split <;> rfl
      · rw [hffe]
        split <;> simp [hcalls]
    have hrep2 : Represents s2 es := by
      obtain ⟨q', h1, h2, h3⟩ := hrep
      exact ⟨q', by rw [hs2self]; exact h1, by rw [hs2nodes]; exact h2, h3⟩
    have hnext : ∀ ff', (∀ x es', es = x :: es' → ff' = x.freeFunction) →
        ∃ s', Queue_release_loop fuel s2 ff' = .ok s' ∧ Represents s' [] ∧
          s'.calls = s.calls ++ teardownCalls (e :: es) ∧
          (∀ x ∈ e :: es, s'.nodes x.addr = none) ∧
          (∀ a, a ∉ (e :: es).map Elem.addr → s'.nodes a = s.nodes a) := by
      intro ff' hff'
      obtain ⟨s', hloop, hrep', hc', hfreed, hkept⟩ :=
        release_loop_drains es fuel s2 ff' hrep2 (by simpa using hf) hff'
      refine ⟨s', hloop, hrep', ?_, ?_, ?_⟩
      · rw [hc', hs2calls, teardownCalls_cons, List.append_assoc]
      · intro x hx
        rcases List.mem_cons.mp hx with rfl | hx
        · rw [hkept _ hnd, hs2nodes, hnodes, Function.update_same]
        · exact hfreed x hx
      · intro a ha
        simp only [List.map_cons, List.mem_cons, not_or] at ha
        rw [hkept a ha.2, hs2nodes, hnodes, Function.update_noteq ha.1]
    have hstep : Queue_release_loop (fuel + 1) s ff =
        (match s2.self with
          | none => .error .invalidAccess
          | some q =>
            if q.head ≠ 0 then
              match s2.nodes q.head with
              | none => .error .invalidAccess
              | some h => Queue_release_loop fuel s2 h.freeFunction
            else Queue_release_loop fuel s2 ff) := by
      rw [hs2]
      simp only [Queue_release_loop, hrem]
      rfl
    rw [hstep, hs2self, hq1]
    cases es with
    | nil =>
      have h0 : ¬ q1.head ≠ 0 := fun h => h hhead
      simp only []
      rw [if_neg h0]
      exact hnext ff (fun x es' h => by cases h)
    | cons x xs =>
      obtain ⟨q', hq', hch', -⟩ := id hrep2
      obtain ⟨-, hx0, nx, hxn, -⟩ := hch'
      have h1 : q1.head = x.addr := hhead
      have h10 : q1.head ≠ 0 := by rw [h1]; exact hx0
      simp only []
      rw [if_pos h10, h1, hxn]
      exact hnext x.freeFunction (fun y es' h => by cases h; rfl)

theorem release_last_reference {s : QueueMem} {es : List Elem} (h : Represents s es)
    (q : Queue) (hq : s.self = some q) (hrc : q.refcount = 1) (fuel : Nat)
    (hfuel : es.length < fuel) :
    ∃ s', Queue_release fuel s = .ok s' ∧ s'.calls = s.calls ++ teardownCalls es ∧
      s'.self = none ∧ (∀ e ∈ es, s'.nodes e.addr = none) ∧
      (∀ a, a ∉ es.map Elem.addr → s'.nodes a = s.nodes a) := by
  have hz : (q.refcount + UINT_MODULUS - 1) % UINT_MODULUS = 0 := by
    rw [hrc]; decide
  obtain ⟨q0, hq0, hch, htail, hcnt, hnd, hb⟩ := id h
  have hqq : q0 = q := by rw [hq] at hq0; exact (Option.some.inj hq0).symm
  subst hqq
  have hrep1 : Represents
      { s with self := some { q0 with refcount := (q0.refcount + UINT_MODULUS - 1) % UINT_MODULUS } }
      es := ⟨_, rfl, hch, htail, hcnt, hnd, hb⟩
  cases es with
  | nil =>
    have hh : q0.head = 0 := hch
    refine ⟨{ s with self := none }, ?_, by simp [teardownCalls], rfl, by simp, fun _ _ => rfl⟩
    simp only [Queue_release, hq, hz, hh, if_true, ne_eq, not_true_eq_false, if_false]
  | cons e es =>
    obtain ⟨hp, h0, nx, hn, hc⟩ := hch
    have hh : q0.head ≠ 0 := by rw [hp]; exact h0
    obtain ⟨s', hloop, _, hcalls, hfreed, hkept⟩ :=
      release_loop_drains (e :: es) fuel _ e.freeFunction hrep1 hfuel
        (fun x es' hx => by cases hx; rfl)
    refine ⟨{ s' with self := none }, ?_, hcalls, rfl, hfreed, hkept⟩
    simp only [Queue_release, hq, hz, if_true]
    rw [if_pos hh, hp, hn]
    rw [hz, hp] at hloop
    simp only [hloop]

theorem lastAddr_eq_zero_iff {nodes : Nat → Option QueueNode} {p : Nat} {es : List Elem}
    (h : Chain nodes p es) : lastAddr es = 0 ↔ es = [] := by
  constructor
  · intro hl
    by_contra hne
    obtain ⟨e, he, hea⟩ := List.mem_map.mp (lastAddr_mem es hne)
    exact (Chain.live es p h e he).1 (hea.trans hl)
  · rintro rfl
    rfl

theorem head_eq_zero_iff {nodes : Nat → Option QueueNode} {p : Nat} {es : List Elem}
    (h : Chain nodes p es) : p = 0 ↔ es = [] := by
  cases es with
  | nil => exact ⟨fun _ => rfl, fun _ => h⟩
  | cons e es =>
    obtain ⟨hp, h0, _⟩ := h
    exact ⟨fun hz => absurd (hp ▸ hz) h0, fun hnil => by cases hnil⟩

theorem sampleQueueMem_represents : Represents sampleQueueMem sampleElems :=
  ⟨_, rfl, ⟨rfl, by decide, 64, rfl, rfl, by decide, 0, rfl, rfl⟩, rfl, rfl, by decide,
    by decide⟩

theorem sampleQueueMem_reachable :
    ∃ s0 s1, Queue_new (some ⟨1, 0, 0, 0⟩) = some s0 ∧
      Queue_insert_withFreeFunction_ s0 32 5 7 = .ok (1, s1) ∧
      Queue_insert_withFreeFunction_ s1 64 0 9 = .ok (1, sampleQueueMem) := by
  exact ⟨_, _, rfl, rfl, rfl⟩

/-! ## Facts about the tree -/

theorem solelyOwned_frame {h h' : Nat → Option BinaryTree} :
    ∀ (t : Shape), SolelyOwned h t → (∀ x ∈ t.addrs, h' x = h x) → SolelyOwned h' t
  | .nil, _, _ => trivial
  | .node a v f p l r, ⟨h0, ha, hl, hr⟩, hf => by
    refine ⟨h0, ?_, solelyOwned_frame l hl fun x hx => hf x ?_,
      solelyOwned_frame r hr fun x hx => hf x ?_⟩
    · rw [hf a (List.mem_cons_self _ _), ha]
    · exact List.mem_cons_of_mem _ (List.mem_append_left _ hx)
    · exact List.mem_cons_of_mem _ (List.mem_append_right _ hx)

theorem setTree_forBranch_null (release : TreeMem → Nat → Except Fault TreeMem)
    (m m1 : TreeMem) (owner : Nat) (b : Branch) (cur : Nat) (t : BinaryTree)
    (hread : m.readBranch owner b = .ok cur)
    (hrel : (if cur ≠ 0 then release m cur else .ok m) = .ok m1)
    (hlive : m1.heap owner = some t) :
    _setTree_forBranch_ release m 0 owner b =
      .ok (1, m1.store owner
        (match b with
          | .left => { t with left := 0 }
          | .right => { t with right := 0 })) := by
  unfold _setTree_forBranch_
  rw [hread]
  simp only
  rw [hrel]
  simp only [if_true, TreeMem.writeBranch, hlive]
  cases b <;> rfl

theorem uint_one_pred : (1 + UINT_MODULUS - 1) % UINT_MODULUS = 0 := by decide

theorem release_solely_owned : ∀ (t : Shape) (fuel : Nat) (m : TreeMem),
    SolelyOwned m.heap t → t.addrs.Nodup → t.height ≤ fuel →
    ∃ m', (if t.root ≠ 0 then BinaryTree_release fuel m t.root else .ok m) = .ok m' ∧
      m'.calls = m.calls ++ t.destructorCalls ∧
      (∀ x ∈ t.addrs, m'.heap x = none) ∧ (∀ x, x ∉ t.addrs → m'.heap x = m.heap x)
  | .nil, _, m, _, _, _ =>
    ⟨m, by simp [Shape.root], by simp [Shape.destructorCalls], by simp [Shape.addrs],
      fun _ _ => rfl⟩
  | .node a v f p l r, 0, _, _, _, hf => by simp [Shape.height] at hf
  | .node a v f p l r, k + 1, m, ⟨ha0, ha, hl, hr⟩, hnd, hf => by
    simp only [Shape.height, Nat.add_le_add_iff_right, max_le_iff] at hf
    simp only [Shape.addrs, List.nodup_cons, List.mem_append, not_or] at hnd
    obtain ⟨⟨hal, har⟩, hlr⟩ := hnd
    have hndl : l.addrs.Nodup := (List.nodup_append.mp hlr).1
    have hndr : r.addrs.Nodup := (List.nodup_append.mp hlr).2.1
    have hdisj : ∀ x, x ∈ l.addrs → x ∉ r.addrs := fun x h1 h2 =>
      (List.nodup_append.mp hlr).2.2 h1 h2
    -- the count drops to zero
    let m1 : TreeMem := m.store a ⟨0, f, p, v, l.root, r.root⟩
    have hm1 : ∀ x, x ≠ a → m1.heap x = m.heap x := fun x hx =>
      Function.update_noteq hx _ _
    have hm1a : m1.heap a = some ⟨0, f, p, v, l.root, r.root⟩ := Function.update_same _ _ _
    -- the left branch
    obtain ⟨m1', hrel1, hc1, hfreed1, hkept1⟩ := release_solely_owned l k m1
      (solelyOwned_frame l hl fun x hx => hm1 x (fun h => hal (h ▸ hx))) hndl hf.1
    have hset1 : setLeftTreeWith (BinaryTree_release k) m1 a 0 =
        .ok (1, m1'.store a ⟨0, f, p, v, 0, r.root⟩) := by
      simp only [setLeftTreeWith, ha0, if_false]
      exact setTree_forBranch_null _ m1 m1' a .left l.root _
        (by simp [TreeMem.readBranch, hm1a]) hrel1 (by rw [hkept1 a hal, hm1a])
    let m2 : TreeMem := m1'.store a ⟨0, f, p, v, 0, r.root⟩
    have hm2 : ∀ x, x ≠ a → m2.heap x = m1'.heap x := fun x hx =>
      Function.update_noteq hx _ _
    have hm2a : m2.heap a = some ⟨0, f, p, v, 0, r.root⟩ := Function.update_same _ _ _
    -- the right branch
    obtain ⟨m2', hrel2, hc2, hfreed2, hkept2⟩ := release_solely_owned r k m2
      (solelyOwned_frame r hr fun x hx => by
        have hxa : x ≠ a := fun h => har (h ▸ hx)
        rw [hm2 x hxa, hkept1 x (fun h => hdisj x h hx), hm1 x hxa]) hndr hf.2
    have hset2 : setRightTreeWith (BinaryTree_release k) m2 a 0 =
        .ok (1, m2'.store a ⟨0, f, p, v, 0, 0⟩) := by
      simp only [setRightTreeWith, ha0, if_false]
      exact setTree_forBranch_null _ m2 m2' a .right r.root _
        (by simp [TreeMem.readBranch, hm2a]) hrel2 (by rw [hkept2 a har, hm2a])
    let m3 : TreeMem := m2'.store a ⟨0, f, p, v, 0, 0⟩
    have hm3a : m3.heap a = some ⟨0, f, p, v, 0, 0⟩ := Function.update_same _ _ _
    -- the value, then the node itself
    let m3c : TreeMem := if f ≠ 0 then { m3 with calls := m3.calls ++ [(f, v)] } else m3
    have hset3 : BinaryTree_setValue_ m3 a 0 =
        .ok (1, m3c.store a ⟨0, BINARY_TREE_FREE, p, 0, 0, 0⟩) := by
      simp only [BinaryTree_setValue_, BinaryTree_setValue_freeFunction_, ha0, if_false, hm3a]
    have hm3c_heap : m3c.heap = m3.heap := by
      show (if f ≠ 0 then _ else m3).heap = _
      split <;> rfl
    have hm3c_calls : m3c.calls = m3.calls ++ (if f ≠ 0 then [(f, v)] else []) := by
      show (if f ≠ 0 then _ else m3).calls = _
      split <;> simp
    refine ⟨{ (m3c.store a ⟨0, BINARY_TREE_FREE, p, 0, 0, 0⟩) with
        heap := Function.update (m3c.store a ⟨0, BINARY_TREE_FREE, p, 0, 0, 0⟩).heap a none },
      ?_, ?_, ?_, ?_⟩
    · show (if a ≠ 0 then BinaryTree_release (k + 1) m a else .ok m) = _
      rw [if_pos ha0]
      simp only [BinaryTree_release, ha0, if_false, ha, uint_one_pred, if_true]
      rw [show m.store a ⟨0, f, p, v, l.root, r.root⟩ = m1 from rfl, hset1]
      simp only
      rw [show m1'.store a ⟨0, f, p, v, 0, r.root⟩ = m2 from rfl, hset2]
      simp only
      rw [show m2'.store a ⟨0, f, p, v, 0, 0⟩ = m3 from rfl, hset3]
    · show m3c.calls = _
      rw [hm3c_calls]
      show m2'.calls ++ _ = _
      rw [hc2]
      show m1'.calls ++ _ ++ _ = _
      rw [hc1]
      simp [Shape.destructorCalls, m1, TreeMem.store]
    · intro x hx
      simp only [Shape.addrs, List.mem_cons, List.mem_append] at hx
      by_cases hxa : x = a
      · subst hxa
        exact Function.update_same _ _ _
      · have hx' : x ∈ l.addrs ∨ x ∈ r.addrs := hx.resolve_left hxa
        show Function.update (Function.update m3c.heap a _) a none x = none
        rw [Function.update_noteq hxa, Function.update_noteq hxa, hm3c_heap]
        show Function.update m2'.heap a _ x = none
        rw [Function.update_noteq hxa]
        rcases hx' with hxl | hxr
        · rw [hkept2 x (hdisj x hxl), hm2 x hxa, hfreed1 x hxl]
        · exact hfreed2 x hxr
    · intro x hx
      simp only [Shape.addrs, List.mem_cons, List.mem_append, not_or] at hx
      obtain ⟨hxa, hxl, hxr⟩ := hx
      show Function.update (Function.update m3c.heap a _) a none x = _
      rw [Function.update_noteq hxa, Function.update_noteq hxa, hm3c_heap]
      show Function.update m2'.heap a _ x = _
      rw [Function.update_noteq hxa, hkept2 x hxr, hm2 x hxa, hkept1 x hxl, hm1 x hxa]

/-! ## Claims about the queue -/

/-- C1. FIFO order: starting from a newly created queue, inserting the values of
`xs` in order (at whatever addresses `malloc` can return, with any free functions)
and then calling `Queue_remove_` as many times, every insert and every remove
returns 1 and the removes yield the inserted values in insertion order. -/
theorem fifo_order (raw : Queue) (s0 : QueueMem) (xs : List Elem)
    (hnew : Queue_new (some raw) = some s0)
    (haddr : ∀ x ∈ xs, x.addr ≠ 0 ∧ x.addr < SIZE_MODULUS)
    (hdist : (xs.map Elem.addr).Nodup) :
    ∃ s1, runOps s0 (insertOps xs ++ List.replicate xs.length .remove)
      = .ok (xs.map (fun _ => .inserted 1) ++ xs.map (fun x => .removed 1 x.data), s1) := by
  obtain ⟨s, hs, hrep, _, _, hnodes⟩ := Queue_new_represents raw
  have hss : s = s0 := by rw [hs] at hnew; exact Option.some.inj hnew
  subst hss
  obtain ⟨s1, hrun, hrep1, _, _⟩ := runOps_inserts xs s [] hrep
    (fun x hx => ⟨(haddr x hx).1, (haddr x hx).2, by rw [hnodes]⟩) hdist
  obtain ⟨s2, hrun2, _, _⟩ := runOps_removes xs s1 (by simpa using hrep1)
  exact ⟨s2, by rw [runOps_append, hrun]; simp only [hrun2]⟩

/-- Witness for `fifo_order`: the values 10, 20, 30 stored at the addresses 32, 64, 96. -/
theorem fifo_order_witness :
    Queue_new (some ⟨0, 5, 6, 7⟩) = some ⟨some ⟨0, 0, 0, 0⟩, fun _ => none, []⟩ ∧
    (∀ x ∈ [(⟨32, 10, 0⟩ : Elem), ⟨64, 20, 9⟩, ⟨96, 30, 0⟩], x.addr ≠ 0 ∧ x.addr < SIZE_MODULUS) ∧
    ([(⟨32, 10, 0⟩ : Elem), ⟨64, 20, 9⟩, ⟨96, 30, 0⟩].map Elem.addr).Nodup ∧
    ∃ s1, runOps ⟨some ⟨0, 0, 0, 0⟩, fun _ => none, []⟩
        (insertOps [⟨32, 10, 0⟩, ⟨64, 20, 9⟩, ⟨96, 30, 0⟩] ++ List.replicate 3 .remove)
      = .ok ([.inserted 1, .inserted 1, .inserted 1,
              .removed 1 10, .removed 1 20, .removed 1 30], s1) :=
  ⟨rfl, by decide, by decide,
    fifo_order ⟨0, 5, 6, 7⟩ _ [⟨32, 10, 0⟩, ⟨64, 20, 9⟩, ⟨96, 30, 0⟩] rfl (by decide) (by decide)⟩

/-- C2, as the code has it. From a newly created queue, after each operation of a
run of inserts and removes (after the first `k`, for every `k`), the operations
have all returned, the successful removes are at most the inserts, and
`Queue_count` is the number of inserts so far minus the number of successful
removes so far, reduced modulo `2 ^ 32`; it is exactly that number whenever that
number is below `2 ^ 32`. -/
theorem count_tracks_ops (raw : Queue) (s0 : QueueMem) (ops : List QueueOp) (k : Nat)
    (hnew : Queue_new (some raw) = some s0) (hm : mallocOk s0 ops = true) :
    ∃ rs s1, runOps s0 (ops.take k) = .ok (rs, s1) ∧ removesDone rs ≤ insertsDone rs ∧
      Queue_count s1 = .ok ((insertsDone rs - removesDone rs) % UINT_MODULUS) ∧
      (insertsDone rs - removesDone rs < UINT_MODULUS →
        Queue_count s1 = .ok (insertsDone rs - removesDone rs)) := by
  obtain ⟨s, hs, hrep, _, _, _⟩ := Queue_new_represents raw
  have hss : s = s0 := by rw [hs] at hnew; exact Option.some.inj hnew
  subst hss
  obtain ⟨rs, s1, es1, hrun, hrep1, hlen, _, _⟩ :=
    run_invariant (ops.take k) s [] hrep (mallocOk_take ops s k hm)
  simp only [List.length_nil, Nat.zero_add] at hlen
  have hd : insertsDone rs - removesDone rs = es1.length := by omega
  refine ⟨rs, s1, hrun, by omega, ?_, ?_⟩
  · rw [hd]; exact hrep1.count_eq
  · intro hlt
    rw [hd] at hlt ⊢
    rw [hrep1.count_eq, Nat.mod_eq_of_lt hlt]

/-- Witness for `count_tracks_ops`: two inserts, a remove, a remove, a remove on
the empty queue and an insert that gets the address of the first node again. -/
theorem count_tracks_ops_witness :
    Queue_new (some ⟨1, 0, 0, 0⟩) = some ⟨some ⟨1, 0, 0, 0⟩, fun _ => none, []⟩ ∧
    mallocOk ⟨some ⟨1, 0, 0, 0⟩, fun _ => none, []⟩
      [.insert 32 10 0, .insert 64 20 5, .remove, .remove, .remove, .insert 32 30 0] = true ∧
    ∃ rs s1, runOps ⟨some ⟨1, 0, 0, 0⟩, fun _ => none, []⟩
        ([QueueOp.insert 32 10 0, .insert 64 20 5, .remove, .remove, .remove,
          .insert 32 30 0].take 3) = .ok (rs, s1) ∧
      removesDone rs ≤ insertsDone rs ∧
      Queue_count s1 = .ok ((insertsDone rs - removesDone rs) % UINT_MODULUS) ∧
      (insertsDone rs - removesDone rs < UINT_MODULUS →
        Queue_count s1 = .ok (insertsDone rs - removesDone rs)) :=
  ⟨rfl, by decide, count_tracks_ops ⟨1, 0, 0, 0⟩ _ _ 3 rfl (by decide)⟩

/-- C2 fails as stated: after `2 ^ 32` inserts into a newly created queue (nodes at
the addresses `32, 64, ..., 32 * 2 ^ 32`), inserts minus successful removes is
`2 ^ 32` but `Queue_count` returns `0`. -/
theorem count_wraps_after_uint_many_inserts :
    Queue_new (some ⟨1, 0, 0, 0⟩) = some ⟨some ⟨1, 0, 0, 0⟩, fun _ => none, []⟩ ∧
    mallocOk ⟨some ⟨1, 0, 0, 0⟩, fun _ => none, []⟩ (manyInserts (2 ^ 32)) = true ∧
    ∃ rs s1, runOps ⟨some ⟨1, 0, 0, 0⟩, fun _ => none, []⟩ (manyInserts (2 ^ 32))
        = .ok (rs, s1) ∧
      insertsDone rs - removesDone rs = 2 ^ 32 ∧ Queue_count s1 = .ok 0 := by
  have h := manyInserts_run ⟨1, 0, 0, 0⟩ ⟨some ⟨1, 0, 0, 0⟩, fun _ => none, []⟩ (2 ^ 32) rfl
    (by decide)
  exact ⟨rfl, h.1, h.2⟩

/-- C3. `Queue_remove_` on an empty queue returns 0 with `*data` set to `NULL` and
leaves the memory as it was; the count is still 0 and `head` and `tail` are still
`NULL`. -/
theorem remove_on_empty (s : QueueMem) (q : Queue) (hq : s.self = some q)
    (hhead : q.head = 0) (htail : q.tail = 0) (hcount : q.count = 0) :
    Queue_remove_ s = .ok (0, 0, s) ∧ Queue_count s = .ok 0 ∧
      s.self = some { q with head := 0, tail := 0, count := 0 } := by
  refine ⟨?_, ?_, ?_⟩
  · simp [Queue_remove_, hq, hhead]
  · simp [Queue_count, hq, hcount]
  · obtain ⟨rc, hd, tl, ct⟩ := q
    simp only at hhead htail hcount
    subst hhead htail hcount
    exact hq

/-- Witness for `remove_on_empty`: a queue that went through an insert and a
remove. -/
theorem remove_on_empty_witness :
    (⟨some ⟨1, 0, 0, 0⟩, Function.update (fun _ => none) 32 none, []⟩ : QueueMem).self
      = some ⟨1, 0, 0, 0⟩ ∧
    (⟨1, 0, 0, 0⟩ : Queue).head = 0 ∧ (⟨1, 0, 0, 0⟩ : Queue).tail = 0 ∧
    (⟨1, 0, 0, 0⟩ : Queue).count = 0 ∧
    Queue_remove_ ⟨some ⟨1, 0, 0, 0⟩, Function.update (fun _ => none) 32 none, []⟩
      = .ok (0, 0, ⟨some ⟨1, 0, 0, 0⟩, Function.update (fun _ => none) 32 none, []⟩) ∧
    Queue_count ⟨some ⟨1, 0, 0, 0⟩, Function.update (fun _ => none) 32 none, []⟩ = .ok 0 ∧
    (⟨some ⟨1, 0, 0, 0⟩, Function.update (fun _ => none) 32 none, []⟩ : QueueMem).self
      = some ⟨1, 0, 0, 0⟩ :=
  ⟨rfl, rfl, rfl, rfl, remove_on_empty _ ⟨1, 0, 0, 0⟩ rfl rfl rfl rfl⟩

/-- C4 fails as stated: a queue with reference count 1 holding one element whose
value is `NULL` and whose free function is 7 is released without any free-function
call, although the element has a free function. -/
theorem release_skips_null_value :
    ∃ s0 s1 s2, Queue_new (some ⟨1, 0, 0, 0⟩) = some s0 ∧
      Queue_insert_withFreeFunction_ s0 32 0 7 = .ok (1, s1) ∧
      Represents s1 [⟨32, 0, 7⟩] ∧
      Queue_release 2 s1 = .ok s2 ∧ s2.self = none ∧ s2.calls = [] ∧
      destructorCalls [⟨32, 0, 7⟩] = [(7, 0)] := by
  refine ⟨_, _, _, rfl, rfl, ?_, rfl, rfl, rfl, rfl⟩
  exact ⟨_, rfl, ⟨rfl, by decide, 0, rfl, rfl⟩, rfl, rfl, by decide, by decide⟩

/-- C4, as the code has it. `Queue_release` on a well-formed queue with reference
count 1 returns, has removed every node and freed the queue object, and has invoked,
oldest element first, the free function of each element that has one and whose
value is not `NULL`, once, on that value; it invoked nothing for the other
elements. -/
theorem release_teardown (s : QueueMem) (es : List Elem) (q : Queue) (fuel : Nat)
    (h : Represents s es) (hq : s.self = some q) (hrc : q.refcount = 1)
    (hfuel : es.length < fuel) :
    ∃ s', Queue_release fuel s = .ok s' ∧ s'.calls = s.calls ++ teardownCalls es ∧
      s'.self = none ∧ (∀ e ∈ es, s'.nodes e.addr = none) ∧
      (∀ a, a ∉ es.map Elem.addr → s'.nodes a = s.nodes a) :=
  release_last_reference h q hq hrc fuel hfuel

/-- Witness for `release_teardown`: the sample queue; of its two elements only the
first has its free function invoked, the second holds `NULL`. -/
theorem release_teardown_witness :
    Represents sampleQueueMem sampleElems ∧
    sampleQueueMem.self = some ⟨1, 32, 64, 2⟩ ∧ (⟨1, 32, 64, 2⟩ : Queue).refcount = 1 ∧
    sampleElems.length < 3 ∧
    ∃ s', Queue_release 3 sampleQueueMem = .ok s' ∧
      s'.calls = sampleQueueMem.calls ++ teardownCalls sampleElems ∧
      s'.self = none ∧ (∀ e ∈ sampleElems, s'.nodes e.addr = none) ∧
      (∀ a, a ∉ sampleElems.map Elem.addr → s'.nodes a = sampleQueueMem.nodes a) :=
  ⟨sampleQueueMem_represents, rfl, rfl, by decide,
    release_teardown sampleQueueMem sampleElems ⟨1, 32, 64, 2⟩ 3 sampleQueueMem_represents rfl rfl
      (by decide)⟩

/-- C5. `Queue_remove_` on a well-formed non-empty queue returns 1 with the value of
the head element and invokes no free function; the node of that element is gone.
Nor is the element's free function invoked for it later: any further run of inserts
and removes invokes nothing, the queue then holds only elements that remained or
were inserted in that run, and a teardown at that point invokes free functions for
those elements only. -/
theorem remove_invokes_no_destructor (s : QueueMem) (e : Elem) (es : List Elem)
    (h : Represents s (e :: es)) :
    ∃ s1, Queue_remove_ s = .ok (1, e.data, s1) ∧ s1.calls = s.calls ∧ Represents s1 es ∧
      s1.nodes e.addr = none ∧
      ∀ ops, mallocOk s1 ops = true →
        ∃ rs s2 es2, runOps s1 ops = .ok (rs, s2) ∧ s2.calls = s.calls ∧ Represents s2 es2 ∧
          (∀ x ∈ es2, x ∈ es ∨ QueueOp.insert x.addr x.data x.freeFunction ∈ ops) ∧
          ∀ q fuel, s2.self = some q → q.refcount = 1 → es2.length < fuel →
            ∃ s3, Queue_release fuel s2 = .ok s3 ∧ s3.calls = s.calls ++ teardownCalls es2 := by
  obtain ⟨s1, hrem, hrep, hcalls, hnodes, _⟩ := remove_represents_cons h
  refine ⟨s1, hrem, hcalls, hrep, by rw [hnodes, Function.update_same], ?_⟩
  intro ops hm
  obtain ⟨rs, s2, es2, hrun, hrep2, _, hcalls2, hprov⟩ := run_invariant ops s1 es hrep hm
  refine ⟨rs, s2, es2, hrun, hcalls2.trans hcalls, hrep2, hprov, ?_⟩
  intro q fuel hq hrc hfuel
  obtain ⟨s3, hrel, hc3, _⟩ := release_last_reference hrep2 q hq hrc fuel hfuel
  exact ⟨s3, hrel, by rw [hc3, hcalls2, hcalls]⟩

/-- Witness for `remove_invokes_no_destructor`: the sample queue, whose head element
has the free function 7. -/
theorem remove_invokes_no_destructor_witness :
    Represents sampleQueueMem (⟨32, 5, 7⟩ :: [⟨64, 0, 9⟩]) ∧
    ∃ s1, Queue_remove_ sampleQueueMem = .ok (1, 5, s1) ∧ s1.calls = [] ∧
      Represents s1 [⟨64, 0, 9⟩] ∧ s1.nodes 32 = none ∧
      ∀ ops, mallocOk s1 ops = true →
        ∃ rs s2 es2, runOps s1 ops = .ok (rs, s2) ∧ s2.calls = [] ∧ Represents s2 es2 ∧
          (∀ x ∈ es2, x ∈ [(⟨64, 0, 9⟩ : Elem)] ∨
            QueueOp.insert x.addr x.data x.freeFunction ∈ ops) ∧
          ∀ q fuel, s2.self = some q → q.refcount = 1 → es2.length < fuel →
            ∃ s3, Queue_release fuel s2 = .ok s3 ∧ s3.calls = [] ++ teardownCalls es2 :=
  ⟨sampleQueueMem_represents,
    remove_invokes_no_destructor sampleQueueMem ⟨32, 5, 7⟩ [⟨64, 0, 9⟩] sampleQueueMem_represents⟩

/-- C6, the code at a failing input: when `malloc` hands `Queue_new` a block whose
`refcount` bytes are 0, the new queue is empty but its reference count is 0, not 1,
and one `Queue_release` wraps the count to `2 ^ 32 - 1` and tears nothing down. -/
theorem Queue_new_leaves_refcount_unset :
    ∃ s0 s1, Queue_new (some ⟨0, 77, 78, 79⟩) = some s0 ∧
      s0.self = some ⟨0, 0, 0, 0⟩ ∧
      Queue_release 1 s0 = .ok s1 ∧ s1.self = some ⟨4294967295, 0, 0, 0⟩ :=
  ⟨_, _, rfl, rfl, rfl, rfl⟩

/-- C7. In every state reached from a newly created queue by inserts and removes
(the run returns), the queue object is live, `head` starts a `NULL`-terminated
chain of nodes whose number is `count`, `tail` is the last node of that chain, the
chain is empty iff `head` is `NULL` iff `tail` is `NULL`, and when the chain has a
single node a remove succeeds and leaves `head` and `tail` `NULL`. -/
theorem queue_invariant (raw : Queue) (s0 : QueueMem) (ops : List QueueOp)
    (hnew : Queue_new (some raw) = some s0) (hm : mallocOk s0 ops = true) :
    ∃ rs s1 es q, runOps s0 ops = .ok (rs, s1) ∧ s1.self = some q ∧
      Chain s1.nodes q.head es ∧ q.count = es.length ∧ q.tail = lastAddr es ∧
      (es = [] ↔ q.head = 0) ∧ (q.head = 0 ↔ q.tail = 0) ∧
      (es.length = 1 → ∃ d s2 q2, Queue_remove_ s1 = .ok (1, d, s2) ∧ s2.self = some q2 ∧
        q2.head = 0 ∧ q2.tail = 0 ∧ q2.count = 0) := by
  obtain ⟨s, hs, hrep, _, _, _⟩ := Queue_new_represents raw
  have hss : s = s0 := by rw [hs] at hnew; exact Option.some.inj hnew
  subst hss
  obtain ⟨rs, s1, es, hrun, hrep1, _, _, _⟩ := run_invariant ops s [] hrep hm
  obtain ⟨q, hq, hch, htail, hcnt, _, _⟩ := id hrep1
  have hhd := head_eq_zero_iff hch
  have htl := lastAddr_eq_zero_iff hch
  refine ⟨rs, s1, es, q, hrun, hq, hch, hcnt, htail, hhd.symm, ?_, ?_⟩
  · rw [htail, hhd, htl]
  · intro h1
    match es, hrep1, h1 with
    | [e], hrep1, _ =>
      obtain ⟨s2, hrem, hrep2, _, _, _⟩ := remove_represents_cons hrep1
      obtain ⟨q2, hq2, hch2, htail2, hcnt2, _, _⟩ := hrep2
      exact ⟨e.data, s2, q2, hrem, hq2, hch2, htail2, hcnt2⟩

/-- Witness for `queue_invariant`: an insert, a remove, and two inserts, the second
of which gets the address of the removed node again. -/
theorem queue_invariant_witness :
    Queue_new (some ⟨1, 0, 0, 0⟩) = some ⟨some ⟨1, 0, 0, 0⟩, fun _ => none, []⟩ ∧
    mallocOk ⟨some ⟨1, 0, 0, 0⟩, fun _ => none, []⟩
      [.insert 32 10 0, .remove, .insert 64 20 5, .insert 32 30 0] = true ∧
    ∃ rs s1 es q, runOps ⟨some ⟨1, 0, 0, 0⟩, fun _ => none, []⟩
        [.insert 32 10 0, .remove, .insert 64 20 5, .insert 32 30 0] = .ok (rs, s1) ∧
      s1.self = some q ∧
      Chain s1.nodes q.head es ∧ q.count = es.length ∧ q.tail = lastAddr es ∧
      (es = [] ↔ q.head = 0) ∧ (q.head = 0 ↔ q.tail = 0) ∧
      (es.length = 1 → ∃ d s2 q2, Queue_remove_ s1 = .ok (1, d, s2) ∧ s2.self = some q2 ∧
        q2.head = 0 ∧ q2.tail = 0 ∧ q2.count = 0) :=
  ⟨rfl, by decide, queue_invariant ⟨1, 0, 0, 0⟩ _ _ rfl (by decide)⟩

/-! ## Claims about the binary tree -/

/-- C8, the code at a failing input (the scenario of the specification): `R` is
created at address 64 with value 1, `L` at address 128 with value 2. After
`BinaryTree_setLeftTree_(R, L)` the left tree of `R` is `L`, but the parent of `L`
is `L` itself, not `R`; likewise for `BinaryTree_setRightTree_`. -/
theorem parent_after_attach_is_child :
    ∃ m1 m2 m3 m4, BinaryTree_newWithValue_ TreeMem.empty 64 1 = .ok (64, m1) ∧
      BinaryTree_newWithValue_ m1 128 2 = .ok (128, m2) ∧
      BinaryTree_setLeftTree_ 1 m2 64 128 = .ok (1, m3) ∧
      BinaryTree_leftTree m3 64 = .ok 128 ∧ BinaryTree_parent m3 128 = .ok 128 ∧
      BinaryTree_setRightTree_ 1 m2 64 128 = .ok (1, m4) ∧
      BinaryTree_rightTree m4 64 = .ok 128 ∧ BinaryTree_parent m4 128 = .ok 128 :=
  ⟨_, _, _, _, rfl, rfl, rfl, rfl, rfl, rfl, rfl, rfl⟩

/-- C9. For a finite tree laid out in memory at distinct addresses, every node of
which has reference count 1, `BinaryTree_release` on the root returns (given fuel
for the height of the tree), afterwards no node of the tree is allocated any more
and the rest of the memory is as before, and the free functions invoked are exactly
one call per node that has a free function, on that node's value, and none for the
nodes without. -/
theorem release_tears_down_tree (m : TreeMem) (t : Shape) (fuel : Nat)
    (hown : SolelyOwned m.heap t) (hnd : t.addrs.Nodup) (hroot : t.root ≠ 0)
    (hfuel : t.height ≤ fuel) :
    ∃ m', BinaryTree_release fuel m t.root = .ok m' ∧
      (∀ x ∈ t.addrs, m'.heap x = none) ∧ (∀ x, x ∉ t.addrs → m'.heap x = m.heap x) ∧
      m'.calls = m.calls ++ t.destructorCalls := by
  obtain ⟨m', hrel, hcalls, hfreed, hkept⟩ := release_solely_owned t fuel m hown hnd hfuel
  rw [if_pos hroot] at hrel
  exact ⟨m', hrel, hfreed, hkept, hcalls⟩

/-- Witness for `release_tears_down_tree`: the tree of the sample run, `R` with its
left child `L`; only `R` has a free function. -/
theorem release_tears_down_tree_witness :
    sampleTreeRun = .ok sampleTreeMem ∧
    SolelyOwned sampleTreeMem.heap sampleShape ∧ sampleShape.addrs.Nodup ∧
    sampleShape.root ≠ 0 ∧ sampleShape.height ≤ 2 ∧
    ∃ m', BinaryTree_release 2 sampleTreeMem 64 = .ok m' ∧
      (∀ x ∈ [64, 128], m'.heap x = none) ∧
      (∀ x, x ∉ [64, 128] → m'.heap x = sampleTreeMem.heap x) ∧
      m'.calls = [] ++ [(7, 1)] :=
  ⟨rfl, ⟨by decide, rfl, ⟨by decide, rfl, trivial, trivial⟩, trivial⟩, by decide, by decide,
    by decide,
    release_tears_down_tree sampleTreeMem sampleShape 2
      ⟨by decide, rfl, ⟨by decide, rfl, trivial, trivial⟩, trivial⟩ (by decide) (by decide)
      (by decide)⟩

/-- C10, the code at a failing input: `n` (at 64) holds `o` (at 128) in its left
slot and `o` holds `c` (at 192) in its left slot, `n` being the only owner of `o`
and `o` the only owner of `c`. `c` is live with reference count 1 and is not in
the left slot of `n`, yet `BinaryTree_setLeftTree_(n, c)` does not return with the
count of `c` raised to 2: releasing `o` frees `c`, and the retain of `c` that
follows is an access to freed storage. -/
theorem attach_grandchild_uses_freed_node :
    ∃ m1 m2 m3 m4 m5 m6 m7, BinaryTree_new TreeMem.empty 64 = .ok (64, m1) ∧
      BinaryTree_new m1 128 = .ok (128, m2) ∧
      BinaryTree_new m2 192 = .ok (192, m3) ∧
      BinaryTree_setLeftTree_ 3 m3 128 192 = .ok (1, m4) ∧
      BinaryTree_release 3 m4 192 = .ok m5 ∧
      BinaryTree_setLeftTree_ 3 m5 64 128 = .ok (1, m6) ∧
      BinaryTree_release 3 m6 128 = .ok m7 ∧
      BinaryTree_leftTree m7 64 = .ok 128 ∧
      (m7.heap 192).map BinaryTree.refCount = some 1 ∧
      BinaryTree_setLeftTree_ 3 m7 64 192 = .error .invalidAccess :=
  ⟨_, _, _, _, _, _, _, rfl, rfl, rfl, rfl, rfl, rfl, rfl, rfl, rfl, rfl⟩

/-! ## Facts and claims about single tree nodes -/

theorem uint_one_mod : (0 + 1) % UINT_MODULUS = 1 := by decide

theorem setValue_freeFunction_live (m : TreeMem) (n : Nat) (t : BinaryTree) (v d : Nat)
    (hn0 : n ≠ 0) (hn : m.heap n = some t) :
    ∃ m1, BinaryTree_setValue_freeFunction_ m n v d = .ok (1, m1) ∧
      m1.calls = m.calls ++ (if t.freeFunction ≠ 0 then [(t.freeFunction, t.value)] else []) ∧
      m1.heap n = some { t with value := v, freeFunction := d } ∧
      (∀ x, x ≠ n → m1.heap x = m.heap x) := by
  simp only [BinaryTree_setValue_freeFunction_, hn0, if_false, hn]
  refine ⟨_, rfl, ?_, ?_, ?_⟩
  · show (if t.freeFunction ≠ 0 then _ else m).calls = _
    split <;> simp
  · exact Function.update_same _ _ _
  · intro x hx
    show Function.update (if t.freeFunction ≠ 0 then _ else m).heap n _ x = _
    rw [Function.update_noteq hx]
    split <;> rfl

/-- C13. For a live node holding `t.value` with free function `t.freeFunction`,
`BinaryTree_setValue_freeFunction_(n, v, d)` returns 1, has invoked the old free
function once on the old value when there is one and nothing otherwise, and has
stored `v` and `d`, so that `BinaryTree_value` gives `v`; the other nodes are
untouched. A second call then invokes `d` on `v` once (if `d` is a function) and
nothing else, and stores the second value. -/
theorem setValue_replaces_and_destroys (m : TreeMem) (n : Nat) (t : BinaryTree) (v d : Nat)
    (hn0 : n ≠ 0) (hn : m.heap n = some t) :
    ∃ m1, BinaryTree_setValue_freeFunction_ m n v d = .ok (1, m1) ∧
      m1.calls = m.calls ++ (if t.freeFunction ≠ 0 then [(t.freeFunction, t.value)] else []) ∧
      m1.heap n = some { t with value := v, freeFunction := d } ∧
      (∀ x, x ≠ n → m1.heap x = m.heap x) ∧
      BinaryTree_value m1 n = .ok v ∧
      ∀ v2 d2, ∃ m2, BinaryTree_setValue_freeFunction_ m1 n v2 d2 = .ok (1, m2) ∧
        m2.calls = m1.calls ++ (if d ≠ 0 then [(d, v)] else []) ∧
        m2.heap n = some { t with value := v2, freeFunction := d2 } ∧
        BinaryTree_value m2 n = .ok v2 := by
  obtain ⟨m1, h1, hc1, hh1, hk1⟩ := setValue_freeFunction_live m n t v d hn0 hn
  refine ⟨m1, h1, hc1, hh1, hk1, by simp [BinaryTree_value, hn0, hh1], ?_⟩
  intro v2 d2
  obtain ⟨m2, h2, hc2, hh2, _⟩ := setValue_freeFunction_live m1 n _ v2 d2 hn0 hh1
  exact ⟨m2, h2, hc2, hh2, by simp [BinaryTree_value, hn0, hh2]⟩

/-- Witness for `setValue_replaces_and_destroys`: a node created with value 1 and
free function 7 gets the value 2 with free function 9. -/
theorem setValue_replaces_and_destroys_witness :
    (64 : Nat) ≠ 0 ∧
    (TreeMem.empty.store 64 ⟨1, 7, 0, 1, 0, 0⟩).heap 64 = some ⟨1, 7, 0, 1, 0, 0⟩ ∧
    ∃ m1, BinaryTree_setValue_freeFunction_ (TreeMem.empty.store 64 ⟨1, 7, 0, 1, 0, 0⟩) 64 2 9
        = .ok (1, m1) ∧
      m1.calls = [] ++ (if (7 : Nat) ≠ 0 then [(7, 1)] else []) ∧
      m1.heap 64 = some ⟨1, 9, 0, 2, 0, 0⟩ ∧
      (∀ x, x ≠ 64 → m1.heap x = (TreeMem.empty.store 64 ⟨1, 7, 0, 1, 0, 0⟩).heap x) ∧
      BinaryTree_value m1 64 = .ok 2 ∧
      ∀ v2 d2, ∃ m2, BinaryTree_setValue_freeFunction_ m1 64 v2 d2 = .ok (1, m2) ∧
        m2.calls = m1.calls ++ (if (9 : Nat) ≠ 0 then [(9, 2)] else []) ∧
        m2.heap 64 = some ⟨1, d2, 0, v2, 0, 0⟩ ∧
        BinaryTree_value m2 64 = .ok v2 :=
  ⟨by decide, rfl,
    setValue_replaces_and_destroys (TreeMem.empty.store 64 ⟨1, 7, 0, 1, 0, 0⟩) 64
      ⟨1, 7, 0, 1, 0, 0⟩ 2 9 (by decide) rfl⟩

theorem newWithValue_freeFunction_ok (m : TreeMem) (a v d : Nat) (ha : a ≠ 0) :
    ∃ m1, BinaryTree_newWithValue_freeFunction_ m a v d = .ok (a, m1) ∧
      m1.heap a = some { refCount := 1, freeFunction := d, parent := 0, value := v,
                         left := 0, right := 0 } ∧
      m1.calls = m.calls ∧ (∀ x, x ≠ a → m1.heap x = m.heap x) := by
  simp only [BinaryTree_newWithValue_freeFunction_, ha, ne_eq, not_false_eq_true, if_true,
    BinaryTree_setValue_freeFunction_, if_false, TreeMem.store, Function.update_same,
    BinaryTree_retain, not_true_eq_false, uint_one_mod]
  refine ⟨_, rfl, ?_, ?_, ?_⟩
  · simp only [Function.update_same]
  · rfl
  · intro x hx
    simp only [Function.update_noteq hx]

/-- C14. When `malloc` succeeds, `BinaryTree_newWithValue_freeFunction_(v, d)`
returns the new node with reference count 1, no left tree, no right tree, no parent,
value `v` and free function `d`; no free function is invoked and no other node is
touched. `BinaryTree_new` gives the same with value `NULL` and no free function. -/
theorem new_node_fields (m : TreeMem) (a v d : Nat) (ha : a ≠ 0) :
    (∃ m1, BinaryTree_newWithValue_freeFunction_ m a v d = .ok (a, m1) ∧
      m1.heap a = some { refCount := 1, freeFunction := d, parent := 0, value := v,
                         left := 0, right := 0 } ∧
      m1.calls = m.calls ∧ (∀ x, x ≠ a → m1.heap x = m.heap x) ∧
      BinaryTree_leftTree m1 a = .ok 0 ∧ BinaryTree_rightTree m1 a = .ok 0 ∧
      BinaryTree_parent m1 a = .ok 0 ∧ BinaryTree_value m1 a = .ok v) ∧
    ∃ m2, BinaryTree_new m a = .ok (a, m2) ∧
      m2.heap a = some { refCount := 1, freeFunction := 0, parent := 0, value := 0,
                         left := 0, right := 0 } ∧
      m2.calls = m.calls ∧ (∀ x, x ≠ a → m2.heap x = m.heap x) := by
  obtain ⟨m1, h1, hh1, hc1, hk1⟩ := newWithValue_freeFunction_ok m a v d ha
  obtain ⟨m2, h2, hh2, hc2, hk2⟩ := newWithValue_freeFunction_ok m a 0 BINARY_TREE_FREE ha
  exact ⟨⟨m1, h1, hh1, hc1, hk1, by simp [BinaryTree_leftTree, ha, hh1],
    by simp [BinaryTree_rightTree, ha, hh1], by simp [BinaryTree_parent, ha, hh1],
    by simp [BinaryTree_value, ha, hh1]⟩, m2, h2, hh2, hc2, hk2⟩

/-- Witness for `new_node_fields`: a node with value 5 and free function 7,
allocated at 64 in the empty memory. -/
theorem new_node_fields_witness :
    (64 : Nat) ≠ 0 ∧
    (∃ m1, BinaryTree_newWithValue_freeFunction_ TreeMem.empty 64 5 7 = .ok (64, m1) ∧
      m1.heap 64 = some ⟨1, 7, 0, 5, 0, 0⟩ ∧
      m1.calls = [] ∧ (∀ x, x ≠ 64 → m1.heap x = none) ∧
      BinaryTree_leftTree m1 64 = .ok 0 ∧ BinaryTree_rightTree m1 64 = .ok 0 ∧
      BinaryTree_parent m1 64 = .ok 0 ∧ BinaryTree_value m1 64 = .ok 5) ∧
    ∃ m2, BinaryTree_new TreeMem.empty 64 = .ok (64, m2) ∧
      m2.heap 64 = some ⟨1, 0, 0, 0, 0, 0⟩ ∧
      m2.calls = [] ∧ (∀ x, x ≠ 64 → m2.heap x = none) :=
  ⟨by decide, new_node_fields TreeMem.empty 64 5 7 (by decide)⟩

theorem release_outstanding (m : TreeMem) (n : Nat) (t : BinaryTree) (fuel : Nat)
    (hn0 : n ≠ 0) (hn : m.heap n = some t) (h2 : 2 ≤ t.refCount)
    (hlt : t.refCount < UINT_MODULUS) :
    BinaryTree_release (fuel + 1) m n =
      .ok (m.store n { t with refCount := t.refCount - 1 }) := by
  have hmod : (t.refCount + UINT_MODULUS - 1) % UINT_MODULUS = t.refCount - 1 := by
    have : t.refCount + UINT_MODULUS - 1 = (t.refCount - 1) + UINT_MODULUS := by omega
    rw [this, Nat.add_mod_right, Nat.mod_eq_of_lt (by omega)]
  have hne : t.refCount - 1 ≠ 0 := by omega
  simp only [BinaryTree_release, hn0, if_false, hn, hmod, hne]

theorem retainTimes_count : ∀ (k : Nat) (m : TreeMem) (n : Nat) (t : BinaryTree),
    n ≠ 0 → m.heap n = some t → t.refCount < UINT_MODULUS →
    ∃ m1, retainTimes k m n = .ok m1 ∧ m1.calls = m.calls ∧
      m1.heap n = some { t with refCount := (t.refCount + k) % UINT_MODULUS } ∧
      (∀ x, x ≠ n → m1.heap x = m.heap x)
  | 0, m, n, t, _, hn, hlt =>
    ⟨m, rfl, rfl, by rw [hn, Nat.add_zero, Nat.mod_eq_of_lt hlt], fun _ _ => rfl⟩
  | k + 1, m, n, t, hn0, hn, hlt => by
    obtain ⟨m1, hrun, hc, hh, hk⟩ := retainTimes_count k
      (m.store n { t with refCount := (t.refCount + 1) % UINT_MODULUS }) n
      { t with refCount := (t.refCount + 1) % UINT_MODULUS } hn0
      (Function.update_same _ _ _) (Nat.mod_lt _ (by decide))
    refine ⟨m1, ?_, hc, ?_, ?_⟩
    · simp only [retainTimes, BinaryTree_retain, hn0, if_false, hn]
      exact hrun
    · rw [hh]
      simp only [Nat.mod_add_mod, Nat.add_assoc, Nat.add_comm 1 k]
    · intro x hx
      rw [hk x hx]
      exact Function.update_noteq hx _ _

/-- C12, as the code has it. For a live node whose reference count is at least 2,
`BinaryTree_release` returns and only lowers the count by 1: the node's other
fields, the other nodes and the log of free-function calls are as before.
`BinaryTree_retain` returns the same node and only changes the count, to the count
plus 1 reduced modulo `2 ^ 32`: that is, plus 1 unless the count was `2 ^ 32 - 1`. -/
theorem release_retain_only_count (m : TreeMem) (n : Nat) (t : BinaryTree)
    (hn0 : n ≠ 0) (hn : m.heap n = some t) (hlt : t.refCount < UINT_MODULUS) :
    (2 ≤ t.refCount → ∀ fuel, 0 < fuel →
      BinaryTree_release fuel m n = .ok (m.store n { t with refCount := t.refCount - 1 })) ∧
    BinaryTree_retain m n =
      .ok (n, m.store n { t with refCount := (t.refCount + 1) % UINT_MODULUS }) ∧
    (t.refCount + 1 < UINT_MODULUS →
      BinaryTree_retain m n = .ok (n, m.store n { t with refCount := t.refCount + 1 })) ∧
    (∀ t', (m.store n t').calls = m.calls ∧ ∀ x, x ≠ n → (m.store n t').heap x = m.heap x) := by
  refine ⟨?_, ?_, ?_, ?_⟩
  · intro h2 fuel hfuel
    obtain ⟨k, rfl⟩ : ∃ k, fuel = k + 1 := ⟨fuel - 1, by omega⟩
    exact release_outstanding m n t k hn0 hn h2 hlt
  · simp only [BinaryTree_retain, hn0, if_false, hn]
  · intro h
    simp only [BinaryTree_retain, hn0, if_false, hn, Nat.mod_eq_of_lt h]
  · intro t'
    exact ⟨rfl, fun x hx => Function.update_noteq hx _ _⟩

/-- Witness for `release_retain_only_count`: a node with reference count 2. -/
theorem release_retain_only_count_witness :
    (64 : Nat) ≠ 0 ∧
    (TreeMem.empty.store 64 ⟨2, 7, 0, 1, 0, 0⟩).heap 64 = some ⟨2, 7, 0, 1, 0, 0⟩ ∧
    (2 : Nat) < UINT_MODULUS ∧
    BinaryTree_release 1 (TreeMem.empty.store 64 ⟨2, 7, 0, 1, 0, 0⟩) 64 =
      .ok ((TreeMem.empty.store 64 ⟨2, 7, 0, 1, 0, 0⟩).store 64 ⟨1, 7, 0, 1, 0, 0⟩) ∧
    BinaryTree_retain (TreeMem.empty.store 64 ⟨2, 7, 0, 1, 0, 0⟩) 64 =
      .ok (64, (TreeMem.empty.store 64 ⟨2, 7, 0, 1, 0, 0⟩).store 64 ⟨3, 7, 0, 1, 0, 0⟩) :=
  ⟨by decide, rfl, by decide,
    (release_retain_only_count (TreeMem.empty.store 64 ⟨2, 7, 0, 1, 0, 0⟩) 64
      ⟨2, 7, 0, 1, 0, 0⟩ (by decide) rfl (by decide)).1 (by decide) 1 (by decide),
    (release_retain_only_count (TreeMem.empty.store 64 ⟨2, 7, 0, 1, 0, 0⟩) 64
      ⟨2, 7, 0, 1, 0, 0⟩ (by decide) rfl (by decide)).2.2.1 (by decide)⟩

/-- C12 fails as stated: a node created with `BinaryTree_new` and retained
`2 ^ 32 - 2` times has reference count `2 ^ 32 - 1`; one more `BinaryTree_retain`
returns the node with reference count 0, not `2 ^ 32`. -/
theorem retain_wraps_at_uint_max :
    ∃ m1 m2 m3, BinaryTree_new TreeMem.empty 64 = .ok (64, m1) ∧
      retainTimes (2 ^ 32 - 2) m1 64 = .ok m2 ∧
      (m2.heap 64).map BinaryTree.refCount = some (2 ^ 32 - 1) ∧
      BinaryTree_retain m2 64 = .ok (64, m3) ∧
      (m3.heap 64).map BinaryTree.refCount = some 0 := by
  obtain ⟨m1, h1, hh1, _, _⟩ := newWithValue_freeFunction_ok TreeMem.empty 64 0 0 (by decide)
  obtain ⟨m2, h2, _, hh2, _⟩ := retainTimes_count (2 ^ 32 - 2) m1 64 _ (by decide) hh1
    (by decide)
  have hrc : (1 + (2 ^ 32 - 2)) % UINT_MODULUS = 2 ^ 32 - 1 := by decide
  simp only [hrc] at hh2
  have hwrap : (2 ^ 32 - 1 + 1) % UINT_MODULUS = 0 := by decide
  refine ⟨m1, m2, m2.store 64 ⟨0, 0, 0, 0, 0, 0⟩, h1, h2, by rw [hh2]; rfl, ?_, ?_⟩
  · simp only [BinaryTree_retain, hh2, hwrap]
    rfl
  · show Option.map BinaryTree.refCount
      (Function.update m2.heap 64 (some ⟨0, 0, 0, 0, 0, 0⟩) 64) = some 0
    rw [Function.update_same]
    rfl

/-- C16 fails as stated: `BinaryTree_release` on a live node whose reference count
is 0 returns normally, the count having wrapped to `2 ^ 32 - 1`. -/
theorem release_below_zero_returns :
    BinaryTree_release 1 (TreeMem.empty.store 64 ⟨0, 0, 0, 0, 0, 0⟩) 64 =
      .ok ((TreeMem.empty.store 64 ⟨0, 0, 0, 0, 0, 0⟩).store 64 ⟨4294967295, 0, 0, 0, 0, 0⟩) :=
  rfl

/-- C16, as the code has it. `BinaryTree_release` checks only that the node pointer
is not `NULL`. Applied to a live node whose reference count is 0 it returns
normally: the count wraps to `2 ^ 32 - 1`, nothing is freed, no free function is
invoked and nothing else changes. Applied to `NULL` it fails the assertion. -/
theorem release_at_zero_wraps (m : TreeMem) (n : Nat) (t : BinaryTree) (fuel : Nat)
    (hn0 : n ≠ 0) (hn : m.heap n = some t) (hrc : t.refCount = 0) (hfuel : 0 < fuel) :
    BinaryTree_release fuel m n = .ok (m.store n { t with refCount := 2 ^ 32 - 1 }) ∧
    (m.store n { t with refCount := 2 ^ 32 - 1 }).calls = m.calls ∧
    (∀ x, x ≠ n → (m.store n { t with refCount := 2 ^ 32 - 1 }).heap x = m.heap x) ∧
    BinaryTree_release fuel m 0 = .error .assertion := by
  obtain ⟨k, rfl⟩ : ∃ k, fuel = k + 1 := ⟨fuel - 1, by omega⟩
  have hmod : (0 + UINT_MODULUS - 1) % UINT_MODULUS = 2 ^ 32 - 1 := by decide
  have hne : ((2 : Nat) ^ 32 - 1 = 0) = False := by decide
  refine ⟨?_, rfl, fun x hx => Function.update_noteq hx _ _, ?_⟩
  · simp only [BinaryTree_release, hn0, if_false, hn, hrc, hmod, hne]
  · simp only [BinaryTree_release, if_true]

/-- Witness for `release_at_zero_wraps`: a live node with reference count 0. -/
theorem release_at_zero_wraps_witness :
    (64 : Nat) ≠ 0 ∧
    (TreeMem.empty.store 64 ⟨0, 7, 0, 1, 0, 0⟩).heap 64 = some ⟨0, 7, 0, 1, 0, 0⟩ ∧
    (⟨0, 7, 0, 1, 0, 0⟩ : BinaryTree).refCount = 0 ∧ 0 < 1 ∧
    BinaryTree_release 1 (TreeMem.empty.store 64 ⟨0, 7, 0, 1, 0, 0⟩) 64 =
      .ok ((TreeMem.empty.store 64 ⟨0, 7, 0, 1, 0, 0⟩).store 64 ⟨2 ^ 32 - 1, 7, 0, 1, 0, 0⟩) :=
  ⟨by decide, rfl, rfl, by decide,
    (release_at_zero_wraps (TreeMem.empty.store 64 ⟨0, 7, 0, 1, 0, 0⟩) 64 ⟨0, 7, 0, 1, 0, 0⟩ 1
      (by decide) rfl rfl (by decide)).1⟩

/-- C18. A node created with `BinaryTree_newWithValue_(v)` has no free function:
releasing it to zero frees it without invoking anything, and replacing its value
invokes nothing. A live node whose value was set with `BinaryTree_setValue_(v)`
has no free function either: replacing the value invokes nothing, and releasing the
node to zero (its subtrees being solely owned) invokes the free functions of the
nodes of its subtrees only, nothing on `v`. -/
theorem default_value_not_owned (m : TreeMem) (a v : Nat) (ha : a ≠ 0) :
    (∃ m1, BinaryTree_newWithValue_ m a v = .ok (a, m1) ∧
      m1.heap a = some { refCount := 1, freeFunction := 0, parent := 0, value := v,
                         left := 0, right := 0 } ∧
      m1.calls = m.calls ∧
      (∀ fuel, 0 < fuel → ∃ m2, BinaryTree_release fuel m1 a = .ok m2 ∧ m2.heap a = none ∧
        m2.calls = m.calls) ∧
      (∀ v2 d2, ∃ m2, BinaryTree_setValue_freeFunction_ m1 a v2 d2 = .ok (1, m2) ∧
        m2.calls = m.calls)) ∧
    (∀ t, m.heap a = some t →
      ∃ m1, BinaryTree_setValue_ m a v = .ok (1, m1) ∧
        m1.heap a = some { t with value := v, freeFunction := 0 } ∧
        (∀ v2 d2, ∃ m2, BinaryTree_setValue_freeFunction_ m1 a v2 d2 = .ok (1, m2) ∧
          m2.calls = m1.calls) ∧
        (∀ (l r : Shape) (fuel : Nat), t.refCount = 1 → t.left = l.root → t.right = r.root →
          SolelyOwned m.heap l → SolelyOwned m.heap r → (a :: (l.addrs ++ r.addrs)).Nodup →
          max l.height r.height < fuel →
          ∃ m2, BinaryTree_release fuel m1 a = .ok m2 ∧ m2.heap a = none ∧
            m2.calls = m1.calls ++ l.destructorCalls ++ r.destructorCalls)) := by
  constructor
  · obtain ⟨m1, h1, hh1, hc1, _⟩ := newWithValue_freeFunction_ok m a v BINARY_TREE_FREE ha
    refine ⟨m1, h1, hh1, hc1, ?_, ?_⟩
    · intro fuel hfuel
      obtain ⟨m2, hrel, hcalls, hfreed, _⟩ :=
        release_solely_owned (.node a v 0 0 .nil .nil) fuel m1 ⟨ha, hh1, trivial, trivial⟩
          (by simp [Shape.addrs]) (by simp [Shape.height]; omega)
      rw [show (Shape.node a v 0 0 .nil .nil).root = a from rfl, if_pos ha] at hrel
      refine ⟨m2, hrel, hfreed a (by simp [Shape.addrs]), ?_⟩
      rw [hcalls, hc1]
      simp [Shape.destructorCalls]
    · intro v2 d2
      obtain ⟨m2, h2, hc2, _, _⟩ := setValue_freeFunction_live m1 a _ v2 d2 ha hh1
      refine ⟨m2, h2, ?_⟩
      rw [hc2, hc1]
      simp [BINARY_TREE_FREE]
  · intro t ht
    obtain ⟨m1, h1, hc1, hh1, hk1⟩ := setValue_freeFunction_live m a t v BINARY_TREE_FREE ha ht
    refine ⟨m1, by simp only [BinaryTree_setValue_, ha, if_false]; exact h1, hh1, ?_, ?_⟩
    · intro v2 d2
      obtain ⟨m2, h2, hc2, _, _⟩ := setValue_freeFunction_live m1 a _ v2 d2 ha hh1
      refine ⟨m2, h2, ?_⟩
      rw [hc2]
      simp [BINARY_TREE_FREE]
    · intro l r fuel hrc hl hr hol hor hnd hfuel
      have hnd' := hnd
      simp only [List.nodup_cons, List.mem_append, not_or] at hnd'
      have hown : SolelyOwned m1.heap (.node a v 0 t.parent l r) := by
        refine ⟨ha, ?_, solelyOwned_frame l hol fun x hx => hk1 x (fun h => hnd'.1.1 (h ▸ hx)),
          solelyOwned_frame r hor fun x hx => hk1 x (fun h => hnd'.1.2 (h ▸ hx))⟩
        rw [hh1, ← hrc, ← hl, ← hr]
        rfl
      obtain ⟨m2, hrel, hcalls, hfreed, _⟩ :=
        release_solely_owned (.node a v 0 t.parent l r) fuel m1 hown hnd
          (by simp only [Shape.height]; omega)
      rw [show (Shape.node a v 0 t.parent l r).root = a from rfl, if_pos ha] at hrel
      refine ⟨m2, hrel, hfreed a (by simp [Shape.addrs]), ?_⟩
      rw [hcalls]
      simp [Shape.destructorCalls]

/-- Witness for `default_value_not_owned`: the value 5 at a node allocated at 64. -/
theorem default_value_not_owned_witness :
    (64 : Nat) ≠ 0 ∧
    ∃ m1, BinaryTree_newWithValue_ TreeMem.empty 64 5 = .ok (64, m1) ∧
      m1.heap 64 = some ⟨1, 0, 0, 5, 0, 0⟩ ∧ m1.calls = [] ∧
      (∀ fuel, 0 < fuel → ∃ m2, BinaryTree_release fuel m1 64 = .ok m2 ∧ m2.heap 64 = none ∧
        m2.calls = []) ∧
      (∀ v2 d2, ∃ m2, BinaryTree_setValue_freeFunction_ m1 64 v2 d2 = .ok (1, m2) ∧
        m2.calls = []) :=
  ⟨by decide, (default_value_not_owned TreeMem.empty 64 5 (by decide)).1⟩

/-! ## Facts and claims about releasing shared subtrees -/

theorem held_frame {h h' : Nat → Option BinaryTree} :
    ∀ (t : Sub), Held h t → (∀ x ∈ t.addrs, h' x = h x) → Held h' t
  | .nil, _, _ => trivial
  | .shared a t, ⟨h0, ha, h2, hlt⟩, hf =>
    ⟨h0, by rw [hf a (List.mem_singleton.mpr rfl), ha], h2, hlt⟩
  | .owned a v f p l r, ⟨h0, ha, hl, hr⟩, hf => by
    refine ⟨h0, ?_, held_frame l hl fun x hx => hf x ?_, held_frame r hr fun x hx => hf x ?_⟩
    · rw [hf a (List.mem_cons_self _ _), ha]
    · exact List.mem_cons_of_mem _ (List.mem_append_left _ hx)
    · exact List.mem_cons_of_mem _ (List.mem_append_right _ hx)

theorem ownedAddrs_subset : ∀ (t : Sub) (x : Nat), x ∈ t.ownedAddrs → x ∈ t.addrs
  | .nil, _, h => h
  | .shared _ _, _, h => by simp [Sub.ownedAddrs] at h
  | .owned a v f p l r, x, h => by
    simp only [Sub.ownedAddrs, Sub.addrs, List.mem_cons, List.mem_append] at h ⊢
    rcases h with h | h | h
    · exact Or.inl h
    · exact Or.inr (Or.inl (ownedAddrs_subset l x h))
    · exact Or.inr (Or.inr (ownedAddrs_subset r x h))

theorem sharedNodes_subset : ∀ (t : Sub) (q : Nat × BinaryTree), q ∈ t.sharedNodes →
    q.1 ∈ t.addrs
  | .nil, _, h => by simp [Sub.sharedNodes] at h
  | .shared a t, q, h => by
    simp only [Sub.sharedNodes, List.mem_singleton] at h
    subst h
    simp [Sub.addrs]
  | .owned a v f p l r, q, h => by
    simp only [Sub.sharedNodes, Sub.addrs, List.mem_cons, List.mem_append] at h ⊢
    rcases h with h | h
    · exact Or.inr (Or.inl (sharedNodes_subset l q h))
    · exact Or.inr (Or.inr (sharedNodes_subset r q h))

theorem release_held : ∀ (t : Sub) (fuel : Nat) (m : TreeMem),
    Held m.heap t → t.addrs.Nodup → t.height ≤ fuel →
    ∃ m', (if t.root ≠ 0 then BinaryTree_release fuel m t.root else .ok m) = .ok m' ∧
      m'.calls = m.calls ++ t.destructorCalls ∧
      (∀ x ∈ t.ownedAddrs, m'.heap x = none) ∧
      (∀ q ∈ t.sharedNodes, m'.heap q.1 = some { q.2 with refCount := q.2.refCount - 1 }) ∧
      (∀ x, x ∉ t.addrs → m'.heap x = m.heap x)
  | .nil, _, m, _, _, _ =>
    ⟨m, by simp [Sub.root], by simp [Sub.destructorCalls], by simp [Sub.ownedAddrs],
      by simp [Sub.sharedNodes], fun _ _ => rfl⟩
  | .shared a t, 0, _, _, _, hf => by simp [Sub.height] at hf
  | .shared a t, k + 1, m, ⟨h0, ha, h2, hlt⟩, _, _ => by
    refine ⟨m.store a { t with refCount := t.refCount - 1 }, ?_, ?_, ?_, ?_, ?_⟩
    · show (if a ≠ 0 then BinaryTree_release (k + 1) m a else .ok m) = _
      rw [if_pos h0]
      exact release_outstanding m a t k h0 ha h2 hlt
    · simp [Sub.destructorCalls, TreeMem.store]
    · simp [Sub.ownedAddrs]
    · intro q hq
      simp only [Sub.sharedNodes, List.mem_singleton] at hq
      subst hq
      exact Function.update_same _ _ _
    · intro x hx
      simp only [Sub.addrs, List.mem_singleton] at hx
      exact Function.update_noteq hx _ _
  | .owned a v f p l r, 0, _, _, _, hf => by simp [Sub.height] at hf
  | .owned a v f p l r, k + 1, m, ⟨ha0, ha, hl, hr⟩, hnd, hf => by
    simp only [Sub.height, Nat.add_le_add_iff_right, max_le_iff] at hf
    simp only [Sub.addrs, List.nodup_cons, List.mem_append, not_or] at hnd
    obtain ⟨⟨hal, har⟩, hlr⟩ := hnd
    have hndl : l.addrs.Nodup := (List.nodup_append.mp hlr).1
    have hndr : r.addrs.Nodup := (List.nodup_append.mp hlr).2.1
    have hdisj : ∀ x, x ∈ l.addrs → x ∉ r.addrs := fun x h1 h2 =>
      (List.nodup_append.mp hlr).2.2 h1 h2
    -- the count drops to zero
    let m1 : TreeMem := m.store a ⟨0, f, p, v, l.root, r.root⟩
    have hm1 : ∀ x, x ≠ a → m1.heap x = m.heap x := fun x hx =>
      Function.update_noteq hx _ _
    have hm1a : m1.heap a = some ⟨0, f, p, v, l.root, r.root⟩ := Function.update_same _ _ _
    -- the left branch
    obtain ⟨m1', hrel1, hc1, hfreed1, hshared1, hkept1⟩ := release_held l k m1
      (held_frame l hl fun x hx => hm1 x (fun h => hal (h ▸ hx))) hndl hf.1
    have hset1 : setLeftTreeWith (BinaryTree_release k) m1 a 0 =
        .ok (1, m1'.store a ⟨0, f, p, v, 0, r.root⟩) := by
      simp only [setLeftTreeWith, ha0, if_false]
      exact setTree_forBranch_null _ m1 m1' a .left l.root _
        (by simp [TreeMem.readBranch, hm1a]) hrel1 (by rw [hkept1 a hal, hm1a])
    let m2 : TreeMem := m1'.store a ⟨0, f, p, v, 0, r.root⟩
    have hm2 : ∀ x, x ≠ a → m2.heap x = m1'.heap x := fun x hx =>
      Function.update_noteq hx _ _
    have hm2a : m2.heap a = some ⟨0, f, p, v, 0, r.root⟩ := Function.update_same _ _ _
    -- the right branch
    obtain ⟨m2', hrel2, hc2, hfreed2, hshared2, hkept2⟩ := release_held r k m2
      (held_frame r hr fun x hx => by
        have hxa : x ≠ a := fun h => har (h ▸ hx)
        rw [hm2 x hxa, hkept1 x (fun h => hdisj x h hx), hm1 x hxa]) hndr hf.2
    have hset2 : setRightTreeWith (BinaryTree_release k) m2 a 0 =
        .ok (1, m2'.store a ⟨0, f, p, v, 0, 0⟩) := by
      simp only [setRightTreeWith, ha0, if_false]
      exact setTree_forBranch_null _ m2 m2' a .right r.root _
        (by simp [TreeMem.readBranch, hm2a]) hrel2 (by rw [hkept2 a har, hm2a])
    let m3 : TreeMem := m2'.store a ⟨0, f, p, v, 0, 0⟩
    have hm3a : m3.heap a = some ⟨0, f, p, v, 0, 0⟩ := Function.update_same _ _ _
    -- the value, then the node itself
    let m3c : TreeMem := if f ≠ 0 then { m3 with calls := m3.calls ++ [(f, v)] } else m3
    have hset3 : BinaryTree_setValue_ m3 a 0 =
        .ok (1, m3c.store a ⟨0, BINARY_TREE_FREE, p, 0, 0, 0⟩) := by
      simp only [BinaryTree_setValue_, BinaryTree_setValue_freeFunction_, ha0, if_false, hm3a]
    have hm3c_heap : m3c.heap = m3.heap := by
      show (if f ≠ 0 then _ else m3).heap = _
      split <;> rfl
    have hm3c_calls : m3c.calls = m3.calls ++ (if f ≠ 0 then [(f, v)] else []) := by
      show (if f ≠ 0 then _ else m3).calls = _
      split <;> simp
    -- the final memory, away from `a`
    have hfinal : ∀ x, x ≠ a →
        Function.update (m3c.store a ⟨0, BINARY_TREE_FREE, p, 0, 0, 0⟩).heap a none x
          = m2'.heap x := by
      intro x hxa
      show Function.update (Function.update m3c.heap a _) a none x = _
      rw [Function.update_noteq hxa, Function.update_noteq hxa, hm3c_heap]
      show Function.update m2'.heap a _ x = _
      rw [Function.update_noteq hxa]
    refine ⟨{ (m3c.store a ⟨0, BINARY_TREE_FREE, p, 0, 0, 0⟩) with
        heap := Function.update (m3c.store a ⟨0, BINARY_TREE_FREE, p, 0, 0, 0⟩).heap a none },
      ?_, ?_, ?_, ?_, ?_⟩
    · show (if a ≠ 0 then BinaryTree_release (k + 1) m a else .ok m) = _
      rw [if_pos ha0]
      simp only [BinaryTree_release, ha0, if_false, ha, uint_one_pred, if_true]
      rw [show m.store a ⟨0, f, p, v, l.root, r.root⟩ = m1 from rfl, hset1]
      simp only
      rw [show m1'.store a ⟨0, f, p, v, 0, r.root⟩ = m2 from rfl, hset2]
      simp only
      rw [show m2'.store a ⟨0, f, p, v, 0, 0⟩ = m3 from rfl, hset3]
    · show m3c.calls = _
      rw [hm3c_calls]
      show m2'.calls ++ _ = _
      rw [hc2]
      show m1'.calls ++ _ ++ _ = _
      rw [hc1]
      simp [Sub.destructorCalls, m1, TreeMem.store]
    · intro x hx
      simp only [Sub.ownedAddrs, List.mem_cons, List.mem_append] at hx
      by_cases hxa : x = a
      · subst hxa
        exact Function.update_same _ _ _
      · refine (hfinal x hxa).trans ?_
        rcases hx.resolve_left hxa with hxl | hxr
        · rw [hkept2 x (hdisj x (ownedAddrs_subset l x hxl)), hm2 x hxa, hfreed1 x hxl]
        · exact hfreed2 x hxr
    · intro q hq
      simp only [Sub.sharedNodes, List.mem_append] at hq
      rcases hq with hql | hqr
      · have hin := sharedNodes_subset l q hql
        have hqa : q.1 ≠ a := fun h => hal (h ▸ hin)
        refine (hfinal _ hqa).trans ?_
        rw [hkept2 _ (hdisj _ hin), hm2 _ hqa, hshared1 q hql]
      · have hin := sharedNodes_subset r q hqr
        have hqa : q.1 ≠ a := fun h => har (h ▸ hin)
        exact (hfinal _ hqa).trans (hshared2 q hqr)
    · intro x hx
      simp only [Sub.addrs, List.mem_cons, List.mem_append, not_or] at hx
      obtain ⟨hxa, hxl, hxr⟩ := hx
      refine (hfinal x hxa).trans ?_
      rw [hkept2 x hxr, hm2 x hxa, hkept1 x hxl, hm1 x hxa]

/-- C11. A node `a` with reference count 1, one of whose slots holds a node `c`
with reference count at least 2 (the other slot holding anything tree-shaped):
`BinaryTree_release(a)` returns, `a` is freed, `c` is still allocated with its count
lowered by exactly 1 and its other fields as before, nothing is invoked for `c`
(the free functions invoked are those of the solely owned nodes below `a` and of
`a` itself), and the memory outside the nodes involved is as before. -/
theorem release_keeps_shared_child (m : TreeMem) (a v f p : Nat) (l r : Sub) (c : Nat)
    (tc : BinaryTree) (fuel : Nat)
    (hheld : Held m.heap (.owned a v f p l r))
    (hnd : (Sub.owned a v f p l r).addrs.Nodup)
    (hchild : l = .shared c tc ∨ r = .shared c tc)
    (hfuel : (Sub.owned a v f p l r).height ≤ fuel) :
    ∃ m', BinaryTree_release fuel m a = .ok m' ∧ m'.heap a = none ∧
      m'.heap c = some { tc with refCount := tc.refCount - 1 } ∧
      m'.calls = m.calls ++ l.destructorCalls ++ r.destructorCalls ++
        (if f ≠ 0 then [(f, v)] else []) ∧
      (Sub.shared c tc).destructorCalls = [] ∧
      (∀ x, x ∉ (Sub.owned a v f p l r).addrs → m'.heap x = m.heap x) := by
  obtain ⟨m', hrel, hcalls, hfreed, hshared, hkept⟩ :=
    release_held (.owned a v f p l r) fuel m hheld hnd hfuel
  rw [show (Sub.owned a v f p l r).root = a from rfl, if_pos hheld.1] at hrel
  refine ⟨m', hrel, hfreed a (by simp [Sub.ownedAddrs]), ?_, ?_, rfl, hkept⟩
  · have hmem : (c, tc) ∈ (Sub.owned a v f p l r).sharedNodes := by
      rcases hchild with h | h <;> subst h <;> simp [Sub.sharedNodes]
    exact hshared (c, tc) hmem
  · rw [hcalls]
    simp [Sub.destructorCalls, List.append_assoc]

/-- Witness for `release_keeps_shared_child`: `R` (free function 7) holds `L` (free
function 9) in its left slot, and the creator of `L` still holds `L` too. -/
theorem release_keeps_shared_child_witness :
    sharedChildRun = .ok sharedChildMem ∧
    Held sharedChildMem.heap (.owned 64 1 7 0 (.shared 128 ⟨2, 9, 128, 2, 0, 0⟩) .nil) ∧
    (Sub.owned 64 1 7 0 (.shared 128 ⟨2, 9, 128, 2, 0, 0⟩) .nil).addrs.Nodup ∧
    (Sub.owned 64 1 7 0 (.shared 128 ⟨2, 9, 128, 2, 0, 0⟩) .nil).height ≤ 2 ∧
    ∃ m', BinaryTree_release 2 sharedChildMem 64 = .ok m' ∧ m'.heap 64 = none ∧
      m'.heap 128 = some ⟨1, 9, 128, 2, 0, 0⟩ ∧
      m'.calls = [] ++ [] ++ [] ++ [(7, 1)] ∧
      (Sub.shared 128 ⟨2, 9, 128, 2, 0, 0⟩).destructorCalls = [] ∧
      (∀ x, x ∉ [64, 128] → m'.heap x = sharedChildMem.heap x) :=
  ⟨rfl, ⟨by decide, rfl, ⟨by decide, rfl, by decide, by decide⟩, trivial⟩, by decide, by decide,
    release_keeps_shared_child sharedChildMem 64 1 7 0 (.shared 128 ⟨2, 9, 128, 2, 0, 0⟩) .nil
      128 ⟨2, 9, 128, 2, 0, 0⟩ 2
      ⟨by decide, rfl, ⟨by decide, rfl, by decide, by decide⟩, trivial⟩ (by decide)
      (Or.inl rfl) (by decide)⟩

/-! ## Facts and claims about the order of a teardown -/

theorem callsOf_append (xs ys : List (Nat × Nat × Nat)) :
    callsOf (xs ++ ys) = callsOf xs ++ callsOf ys := by
  simp [callsOf, List.filterMap_append]

theorem callsOf_singleton (a v f : Nat) :
    callsOf [(a, v, f)] = if f ≠ 0 then [(f, v)] else [] := by
  by_cases h : f = 0 <;> simp [callsOf, List.filterMap_cons, h]

theorem destructorCalls_eq_callsOf : ∀ (t : Sub), t.destructorCalls = callsOf t.postorder
  | .nil => rfl
  | .shared _ _ => rfl
  | .owned a v f p l r => by
    simp only [Sub.destructorCalls, Sub.postorder, callsOf_append, callsOf_singleton,
      destructorCalls_eq_callsOf l, destructorCalls_eq_callsOf r]

theorem postorder_perm_addrs : ∀ (t : Sub), t.sharedNodes = [] →
    (t.postorder.map (·.1)).Perm t.addrs
  | .nil, _ => List.Perm.refl _
  | .shared _ _, h => by simp [Sub.sharedNodes] at h
  | .owned a v f p l r, h => by
    simp only [Sub.sharedNodes, List.append_eq_nil] at h
    have hl := postorder_perm_addrs l h.1
    have hr := postorder_perm_addrs r h.2
    simp only [Sub.postorder, Sub.addrs, List.map_append, List.map_cons, List.map_nil]
    exact (List.perm_append_singleton a _).trans ((hl.append hr).cons a)

/-- C20. When `BinaryTree_release` brings the count of a node to zero (what hangs in
its slots being tree-shaped), it returns and the free functions are invoked in this
order: those of the cascade of the left slot, then those of the cascade of the
right slot, then the node's own; over the whole tree that is the post-order of the
nodes that are torn down, which are all the nodes when every node has reference
count 1. -/
theorem release_order_postorder (m : TreeMem) (a v f p : Nat) (l r : Sub) (fuel : Nat)
    (hheld : Held m.heap (.owned a v f p l r))
    (hnd : (Sub.owned a v f p l r).addrs.Nodup)
    (hfuel : (Sub.owned a v f p l r).height ≤ fuel) :
    ∃ m', BinaryTree_release fuel m a = .ok m' ∧
      m'.calls = m.calls ++ callsOf l.postorder ++ callsOf r.postorder ++ callsOf [(a, v, f)] ∧
      m'.calls = m.calls ++ callsOf (Sub.owned a v f p l r).postorder ∧
      ((Sub.owned a v f p l r).sharedNodes = [] →
        (((Sub.owned a v f p l r).postorder).map (·.1)).Perm (Sub.owned a v f p l r).addrs) := by
  obtain ⟨m', hrel, hcalls, _, _, _⟩ :=
    release_held (.owned a v f p l r) fuel m hheld hnd hfuel
  rw [show (Sub.owned a v f p l r).root = a from rfl, if_pos hheld.1] at hrel
  rw [destructorCalls_eq_callsOf] at hcalls
  refine ⟨m', hrel, ?_, hcalls, postorder_perm_addrs _⟩
  rw [hcalls]
  simp only [Sub.postorder, callsOf_append, List.append_assoc]

/-- Witness for `release_order_postorder`: a root with free function 7 and two
children with free functions 8 (left) and 9 (right). -/
theorem release_order_postorder_witness :
    Held threeNodeMem.heap threeNodeSub ∧ threeNodeSub.addrs.Nodup ∧
    threeNodeSub.height ≤ 2 ∧
    ∃ m', BinaryTree_release 2 threeNodeMem 64 = .ok m' ∧
      m'.calls = [] ++ [(8, 2)] ++ [(9, 3)] ++ [(7, 1)] ∧
      m'.calls = [] ++ [(8, 2), (9, 3), (7, 1)] ∧
      (threeNodeSub.sharedNodes = [] →
        ([128, 192, 64] : List Nat).Perm [64, 128, 192]) :=
  ⟨⟨by decide, rfl, ⟨by decide, rfl, trivial, trivial⟩, ⟨by decide, rfl, trivial, trivial⟩⟩,
    by decide, by decide,
    release_order_postorder threeNodeMem 64 1 7 0 (.owned 128 2 8 128 .nil .nil)
      (.owned 192 3 9 192 .nil .nil) 2
      ⟨by decide, rfl, ⟨by decide, rfl, trivial, trivial⟩, ⟨by decide, rfl, trivial, trivial⟩⟩
      (by decide) (by decide)⟩

/-! ## Facts and claims about attaching and detaching -/

theorem writeBranch_ok {m m' : TreeMem} {o v : Nat} {b : Branch}
    (h : m.writeBranch o b v = .ok m') :
    ∃ t', m'.heap o = some t' ∧ t'.branch b = v := by
  unfold TreeMem.writeBranch at h
  cases ho : m.heap o with
  | none => rw [ho] at h; cases h
  | some t =>
    rw [ho] at h
    cases b with
    | left =>
      simp only [Except.ok.injEq] at h
      subst h
      exact ⟨_, Function.update_same _ _ _, rfl⟩
    | right =>
      simp only [Except.ok.injEq] at h
      subst h
      exact ⟨_, Function.update_same _ _ _, rfl⟩

theorem retain_ok {m m' : TreeMem} {x r : Nat} (h : BinaryTree_retain m x = .ok (r, m')) :
    r = x := by
  unfold BinaryTree_retain at h
  split at h
  · cases h
  · split at h
    · cases h
    · simp only [Except.ok.injEq, Prod.mk.injEq] at h
      exact h.1.symm

theorem setTree_forBranch_slot (release : TreeMem → Nat → Except Fault TreeMem)
    (m : TreeMem) (tree owner : Nat) (b : Branch) (r : Nat) (m' : TreeMem)
    (h : _setTree_forBranch_ release m tree owner b = .ok (r, m')) :
    r = 1 ∧ ∃ t', m'.heap owner = some t' ∧ t'.branch b = tree := by
  unfold _setTree_forBranch_ at h
  split at h
  · cases h
  · split at h
    · cases h
    · rename_i m1 _
      split at h
      · split at h
        · cases h
        · rename_i m2 hw
          simp only [Except.ok.injEq, Prod.mk.injEq] at h
          obtain ⟨hr, hm⟩ := h
          subst hm
          exact ⟨hr.symm, writeBranch_ok hw⟩
      · split at h
        · cases h
        · rename_i r0 m2 hret
          have hr0 : r0 = tree := retain_ok hret
          subst hr0
          split at h
          · cases h
          · rename_i m3 hw
            split at h
            · cases h
            · split at h
              · cases h
              · rename_i p _ t ht
                simp only [Except.ok.injEq, Prod.mk.injEq] at h
                obtain ⟨hr, hm⟩ := h
                subst hm
                refine ⟨hr.symm, ?_⟩
                obtain ⟨t3, ht3, hb3⟩ := writeBranch_ok hw
                by_cases hot : owner = r0
                · subst hot
                  rw [ht3] at ht
                  cases ht
                  refine ⟨_, Function.update_same _ _ _, ?_⟩
                  cases b <;> exact hb3
                · exact ⟨t3, by
                    show Function.update m3.heap r0 _ owner = _
                    rw [Function.update_noteq hot, ht3], hb3⟩

theorem isLeafNode_of_node (m : TreeMem) (n : Nat) (t : BinaryTree) (hn0 : n ≠ 0)
    (hn : m.heap n = some t) :
    BinaryTree_isLeafNode m n = .ok (if t.left = 0 ∧ t.right = 0 then 1 else 0) := by
  simp only [BinaryTree_isLeafNode, hn0, if_false, hn]

theorem setTreeAt_unfold (b : Branch) (fuel : Nat) (m : TreeMem) (n tree : Nat) (hn0 : n ≠ 0) :
    setTreeAt b fuel m n tree = _setTree_forBranch_ (BinaryTree_release fuel) m tree n b := by
  cases b <;>
    simp only [setTreeAt, BinaryTree_setLeftTree_, BinaryTree_setRightTree_, setLeftTreeWith,
      setRightTreeWith, hn0, if_false]

theorem attach_empty_slot (release : TreeMem → Nat → Except Fault TreeMem) (m : TreeMem)
    (n c : Nat) (b : Branch) (tn tc : BinaryTree) (hn : m.heap n = some tn)
    (hb : tn.branch b = 0) (hc0 : c ≠ 0) (hcn : c ≠ n) (hc : m.heap c = some tc) :
    ∃ m', _setTree_forBranch_ release m c n b = .ok (1, m') ∧ m'.calls = m.calls ∧
      m'.heap c = some { tc with refCount := (tc.refCount + 1) % UINT_MODULUS, parent := c } := by
  have hnc : n ≠ c := fun h => hcn h.symm
  cases b with
  | left =>
    have hb' : tn.left = 0 := hb
    simp only [_setTree_forBranch_, TreeMem.readBranch, hn, hb', ne_eq, not_true_eq_false,
      if_false, hc0, BinaryTree_retain, hc, TreeMem.writeBranch, TreeMem.store,
      Function.update_noteq hnc, Function.update_same, Function.update_noteq hcn]
    exact ⟨_, rfl, rfl, Function.update_same _ _ _⟩
  | right =>
    have hb' : tn.right = 0 := hb
    simp only [_setTree_forBranch_, TreeMem.readBranch, hn, hb', ne_eq, not_true_eq_false,
      if_false, hc0, BinaryTree_retain, hc, TreeMem.writeBranch, TreeMem.store,
      Function.update_noteq hnc, Function.update_same, Function.update_noteq hcn]
    exact ⟨_, rfl, rfl, Function.update_same _ _ _⟩

theorem detach_both_held (m : TreeMem) (n : Nat) (t : BinaryTree) (l r : Sub) (fuel : Nat)
    (hn0 : n ≠ 0) (hn : m.heap n = some t) (hl : t.left = l.root) (hr : t.right = r.root)
    (hheldl : Held m.heap l) (hheldr : Held m.heap r)
    (hnd : (n :: (l.addrs ++ r.addrs)).Nodup) (hfl : l.height ≤ fuel) (hfr : r.height ≤ fuel) :
    ∃ m1 m2, BinaryTree_setLeftTree_ fuel m n 0 = .ok (1, m1) ∧
      BinaryTree_setRightTree_ fuel m1 n 0 = .ok (1, m2) ∧
      m2.heap n = some { t with left := 0, right := 0 } ∧
      m2.calls = m.calls ++ l.destructorCalls ++ r.destructorCalls := by
  simp only [List.nodup_cons, List.mem_append, not_or] at hnd
  obtain ⟨⟨hnl, hnr⟩, hlr⟩ := hnd
  have hndl : l.addrs.Nodup := (List.nodup_append.mp hlr).1
  have hndr : r.addrs.Nodup := (List.nodup_append.mp hlr).2.1
  have hdisj : ∀ x, x ∈ l.addrs → x ∉ r.addrs := fun x h1 h2 =>
    (List.nodup_append.mp hlr).2.2 h1 h2
  obtain ⟨m1', hrel1, hc1, _, _, hkept1⟩ := release_held l fuel m hheldl hndl hfl
  have hset1 : BinaryTree_setLeftTree_ fuel m n 0 = .ok (1, m1'.store n { t with left := 0 }) := by
    simp only [BinaryTree_setLeftTree_, setLeftTreeWith, hn0, if_false]
    exact setTree_forBranch_null _ m m1' n .left l.root t
      (by simp [TreeMem.readBranch, hn, hl]) hrel1 (by rw [hkept1 n hnl, hn])
  have hm1n : (m1'.store n { t with left := 0 }).heap n = some { t with left := 0 } :=
    Function.update_same _ _ _
  have hm1 : ∀ x, x ≠ n → (m1'.store n { t with left := 0 }).heap x = m1'.heap x :=
    fun x hx => Function.update_noteq hx _ _
  obtain ⟨m2', hrel2, hc2, _, _, hkept2⟩ := release_held r fuel (m1'.store n { t with left := 0 })
    (held_frame r hheldr fun x hx => by
      have hxn : x ≠ n := fun h => hnr (h ▸ hx)
      rw [hm1 x hxn, hkept1 x (fun h => hdisj x h hx)]) hndr hfr
  have hset2 : BinaryTree_setRightTree_ fuel (m1'.store n { t with left := 0 }) n 0 =
      .ok (1, m2'.store n { t with left := 0, right := 0 }) := by
    simp only [BinaryTree_setRightTree_, setRightTreeWith, hn0, if_false]
    exact setTree_forBranch_null _ _ m2' n .right r.root { t with left := 0 }
      (by simp only [TreeMem.readBranch, hm1n]; rw [hr]) hrel2 (by rw [hkept2 n hnr, hm1n])
  refine ⟨_, _, hset1, hset2, Function.update_same _ _ _, ?_⟩
  show m2'.calls = _
  rw [hc2]
  show m1'.calls ++ _ = _
  rw [hc1]

/-- C17. For a live node, `BinaryTree_isLeafNode` returns 1 if both the left and the
right slot are `NULL` and 0 otherwise. Hence it returns 1 on a node just created;
it returns 0 after any call that set a slot of the node to a tree other than
`NULL` (such a call does return when the slot was empty and the tree is another
live node); and it returns 1 after the left and the right slot have been set to
`NULL` (these calls do return when what hangs in the slots is tree-shaped). -/
theorem isLeafNode_iff_no_children (m : TreeMem) (n : Nat) (t : BinaryTree) (hn0 : n ≠ 0)
    (hn : m.heap n = some t) :
    BinaryTree_isLeafNode m n = .ok (if t.left = 0 ∧ t.right = 0 then 1 else 0) ∧
    (∀ m0 a v d, a ≠ 0 → ∃ m1, BinaryTree_newWithValue_freeFunction_ m0 a v d = .ok (a, m1) ∧
      BinaryTree_isLeafNode m1 a = .ok 1) ∧
    (∀ b fuel c r m1, c ≠ 0 → setTreeAt b fuel m n c = .ok (r, m1) →
      BinaryTree_isLeafNode m1 n = .ok 0) ∧
    (∀ b fuel c tc, c ≠ 0 → c ≠ n → t.branch b = 0 → m.heap c = some tc →
      ∃ m1, setTreeAt b fuel m n c = .ok (1, m1) ∧ BinaryTree_isLeafNode m1 n = .ok 0) ∧
    (∀ (l r : Sub) (fuel : Nat), t.left = l.root → t.right = r.root → Held m.heap l →
      Held m.heap r → (n :: (l.addrs ++ r.addrs)).Nodup → l.height ≤ fuel → r.height ≤ fuel →
      ∃ m1 m2, BinaryTree_setLeftTree_ fuel m n 0 = .ok (1, m1) ∧
        BinaryTree_setRightTree_ fuel m1 n 0 = .ok (1, m2) ∧
        BinaryTree_isLeafNode m2 n = .ok 1) := by
  have hpost : ∀ b fuel c r m1, c ≠ 0 → setTreeAt b fuel m n c = .ok (r, m1) →
      BinaryTree_isLeafNode m1 n = .ok 0 := by
    intro b fuel c r m1 hc0 hset
    rw [setTreeAt_unfold b fuel m n c hn0] at hset
    obtain ⟨_, t', ht', hb'⟩ := setTree_forBranch_slot _ m c n b r m1 hset
    rw [isLeafNode_of_node m1 n t' hn0 ht']
    have : ¬ (t'.left = 0 ∧ t'.right = 0) := by
      intro h
      cases b
      · exact hc0 (hb'.symm.trans h.1)
      · exact hc0 (hb'.symm.trans h.2)
    rw [if_neg this]
  refine ⟨isLeafNode_of_node m n t hn0 hn, ?_, hpost, ?_, ?_⟩
  · intro m0 a v d ha
    obtain ⟨m1, h1, hh1, _, _⟩ := newWithValue_freeFunction_ok m0 a v d ha
    exact ⟨m1, h1, by rw [isLeafNode_of_node m1 a _ ha hh1]; rfl⟩
  · intro b fuel c tc hc0 hcn hb hc
    obtain ⟨m1, hset, _, _⟩ := attach_empty_slot (BinaryTree_release fuel) m n c b t tc hn hb
      hc0 hcn hc
    rw [← setTreeAt_unfold b fuel m n c hn0] at hset
    exact ⟨m1, hset, hpost b fuel c 1 m1 hc0 hset⟩
  · intro l r fuel hl hr hheldl hheldr hnd hfl hfr
    obtain ⟨m1, m2, h1, h2, hh2, _⟩ :=
      detach_both_held m n t l r fuel hn0 hn hl hr hheldl hheldr hnd hfl hfr
    exact ⟨m1, m2, h1, h2, by rw [isLeafNode_of_node m2 n _ hn0 hh2]; rfl⟩

/-- Witness for `isLeafNode_iff_no_children`: the root of the sample memory with a
shared left child, which is not a leaf. -/
theorem isLeafNode_iff_no_children_witness :
    (64 : Nat) ≠ 0 ∧ sharedChildMem.heap 64 = some ⟨1, 7, 0, 1, 128, 0⟩ ∧
    BinaryTree_isLeafNode sharedChildMem 64 = .ok 0 ∧
    BinaryTree_isLeafNode sharedChildMem 128 = .ok 1 ∧
    ∃ m1 m2, BinaryTree_setLeftTree_ 1 sharedChildMem 64 0 = .ok (1, m1) ∧
      BinaryTree_setRightTree_ 1 m1 64 0 = .ok (1, m2) ∧
      BinaryTree_isLeafNode m2 64 = .ok 1 :=
  ⟨by decide, rfl,
    (isLeafNode_iff_no_children sharedChildMem 64 ⟨1, 7, 0, 1, 128, 0⟩ (by decide) rfl).1,
    rfl,
    (isLeafNode_iff_no_children sharedChildMem 64 ⟨1, 7, 0, 1, 128, 0⟩ (by decide) rfl).2.2.2.2
      (.shared 128 ⟨2, 9, 128, 2, 0, 0⟩) .nil 1 rfl rfl ⟨by decide, rfl, by decide, by decide⟩
      trivial (by decide) (by decide) (by decide)⟩

/-- C15, the code at a failing input: `R` is created at 64 and `L` at 128, and `L`
becomes the right tree of `R`. Then `R` holds `L`, but the parent of `L` is `L`,
whose own slots are empty. After `L` is detached again (its creator still holds it,
so it stays allocated) no node holds `L`, yet its parent is still `L`, not `NULL`. -/
theorem parent_link_inconsistent :
    ∃ m1 m2 m3 m4, BinaryTree_new TreeMem.empty 64 = .ok (64, m1) ∧
      BinaryTree_new m1 128 = .ok (128, m2) ∧
      BinaryTree_parent m2 128 = .ok 0 ∧
      BinaryTree_setRightTree_ 1 m2 64 128 = .ok (1, m3) ∧
      BinaryTree_rightTree m3 64 = .ok 128 ∧
      BinaryTree_parent m3 128 = .ok 128 ∧
      BinaryTree_leftTree m3 128 = .ok 0 ∧ BinaryTree_rightTree m3 128 = .ok 0 ∧
      BinaryTree_setRightTree_ 1 m3 64 0 = .ok (1, m4) ∧
      (m4.heap 128).map BinaryTree.refCount = some 1 ∧
      BinaryTree_leftTree m4 64 = .ok 0 ∧ BinaryTree_rightTree m4 64 = .ok 0 ∧
      BinaryTree_leftTree m4 128 = .ok 0 ∧ BinaryTree_rightTree m4 128 = .ok 0 ∧
      BinaryTree_parent m4 128 = .ok 128 :=
  ⟨_, _, _, _, rfl, rfl, rfl, rfl, rfl, rfl, rfl, rfl, rfl, rfl, rfl, rfl, rfl, rfl, rfl⟩

/-- C19, the code at a failing input: the right slot of `n` (at 64) holds `old` (at
128, held by `n` only), whose right slot holds `new` (at 192, held by `old` only).
`new` is live and distinct from `old`, yet `BinaryTree_setRightTree_(n, new)` does
not return 1 with `new` stored: releasing `old` tears down `old` and, in cascade,
`new`, and the retain of `new` that follows is an access to freed storage. -/
theorem replace_with_grandchild_uses_freed_node :
    ∃ m1 m2 m3 m4 m5 m6 m7,
      BinaryTree_newWithValue_freeFunction_ TreeMem.empty 64 1 7 = .ok (64, m1) ∧
      BinaryTree_newWithValue_freeFunction_ m1 128 2 8 = .ok (128, m2) ∧
      BinaryTree_newWithValue_freeFunction_ m2 192 3 9 = .ok (192, m3) ∧
      BinaryTree_setRightTree_ 3 m3 128 192 = .ok (1, m4) ∧
      BinaryTree_release 3 m4 192 = .ok m5 ∧
      BinaryTree_setRightTree_ 3 m5 64 128 = .ok (1, m6) ∧
      BinaryTree_release 3 m6 128 = .ok m7 ∧
      BinaryTree_rightTree m7 64 = .ok 128 ∧
      BinaryTree_rightTree m7 128 = .ok 192 ∧
      (m7.heap 128).map BinaryTree.refCount = some 1 ∧
      (m7.heap 192).map BinaryTree.refCount = some 1 ∧
      BinaryTree_setRightTree_ 3 m7 64 192 = .error .invalidAccess :=
  ⟨_, _, _, _, _, _, _, rfl, rfl, rfl, rfl, rfl, rfl, rfl, rfl, rfl, rfl, rfl, rfl⟩

/-- C21, the code at a failing input: `R` (at 64) holds `L` (at 128, value 2, free
function 9) in its left slot and is the only owner of `L`. Attaching `L` to that slot
again does not leave `L` alive with count 1 and nothing invoked: the release that
`_setTree_forBranch_` performs first brings the count of `L` to zero, invokes the
free function of `L` and frees `L`, and the retain of `L` that follows is an access
to freed storage; likewise for the right slot. When `L` has another owner (count 2)
the same call returns with the count, the slot and the log as before. -/
theorem reattach_sole_child_uses_freed_node :
    ∃ m1 m2 m3 m4 m5 m6 m7 m8,
      BinaryTree_newWithValue_freeFunction_ TreeMem.empty 64 1 7 = .ok (64, m1) ∧
      BinaryTree_newWithValue_freeFunction_ m1 128 2 9 = .ok (128, m2) ∧
      -- left slot, `R` the only owner of `L`
      BinaryTree_setLeftTree_ 2 m2 64 128 = .ok (1, m3) ∧
      BinaryTree_release 2 m3 128 = .ok m4 ∧
      BinaryTree_leftTree m4 64 = .ok 128 ∧
      (m4.heap 128).map BinaryTree.refCount = some 1 ∧ m4.calls = [] ∧
      BinaryTree_release 2 m4 128 = .ok m5 ∧ m5.heap 128 = none ∧ m5.calls = [(9, 2)] ∧
      BinaryTree_setLeftTree_ 2 m4 64 128 = .error .invalidAccess ∧
      -- right slot, `R` the only owner of `L`
      BinaryTree_setRightTree_ 2 m2 64 128 = .ok (1, m6) ∧
      BinaryTree_release 2 m6 128 = .ok m7 ∧
      BinaryTree_rightTree m7 64 = .ok 128 ∧
      (m7.heap 128).map BinaryTree.refCount = some 1 ∧
      BinaryTree_setRightTree_ 2 m7 64 128 = .error .invalidAccess ∧
      -- left slot, `L` held by its creator too
      (m3.heap 128).map BinaryTree.refCount = some 2 ∧
      BinaryTree_setLeftTree_ 2 m3 64 128 = .ok (1, m8) ∧
      (m8.heap 128).map BinaryTree.refCount = some 2 ∧
      BinaryTree_leftTree m8 64 = .ok 128 ∧ m8.calls = m3.calls :=
  ⟨_, _, _, _, _, _, _, _, rfl, rfl, rfl, rfl, rfl, rfl, rfl, rfl, rfl, rfl, rfl, rfl, rfl, rfl,
    rfl, rfl, rfl, rfl, rfl, rfl, rfl⟩

end DataStructures
